import Mathlib

/-!
# Verification of `src/tile/lang/gen_stripe.cc` (PlaidML tile-to-Stripe lowering)

A shallow embedding of the `StripeGenerator` lowering pass.  Each definition
mirrors a function or data structure of the C++ source; source line numbers in
`gen_stripe.cc` are cited in the doc comments.  External collaborators
(parser, binder, bounds solver, polynomial transforms — all outside the core
source file) are passed in as explicit data or function parameters.
-/

deriving instance DecidableEq for Except

namespace GenStripe

/-- `tile::TensorDimension` (stride, size).  `size` is the dimension extent,
`stride` the element stride. -/
structure TensorDimension where
  stride : Int
  size : Nat
deriving DecidableEq, Repr, Inhabited

/-- `tile::TensorShape`: element type plus ordered dimensions.  `byte_size()`
is computed by `tile/base/shape.h`, which is outside the core source file;
the value is carried here as explicit data (`byteSize`). -/
structure TensorShape where
  type : String
  dims : List TensorDimension
  byteSize : Nat
deriving DecidableEq, Repr, Inhabited

/-- An inclusive integer index range `[min, max]` (`math::IndexBounds` entry),
solved externally by `ComputeBounds`. -/
structure Bound where
  min : Int
  max : Int
deriving DecidableEq, Repr, Inhabited

/-- `stripe::Affine = math::Polynomial<int64_t>`: a constant plus a map from
index names to integer coefficients.  The C++ `std::map` stores the constant
under the key `""`; here the constant is a separate field and `terms` holds
only the (nonempty-name, nonzero-coefficient) entries, mirroring the
canonical form that `Polynomial`'s mutators maintain (zero entries erased). -/
structure Affine where
  const : Int
  terms : List (String × Int)
deriving DecidableEq, Repr, Inhabited

/-- The default-constructed (zero) affine expression: `Affine{}` / `Affine{0}`. -/
def Affine.zero : Affine := ⟨0, []⟩

/-- `Affine{name}` = `Polynomial(name)`: coefficient 1 on one index. -/
def Affine.var (n : String) : Affine := ⟨0, [(n, 1)]⟩

/-- The C++ `getMap()` view: the `std::map` contents, with the constant under
key `""` when nonzero ("" sorts before every nonempty key, so it is first). -/
def Affine.getMap (a : Affine) : List (String × Int) :=
  (if a.const = 0 then [] else [("", a.const)]) ++ a.terms

/-- `result += c` for an integer constant `c`. -/
def Affine.addConst (a : Affine) (c : Int) : Affine := ⟨a.const + c, a.terms⟩

/-- `result -= c` for an integer constant `c`. -/
def Affine.subConst (a : Affine) (c : Int) : Affine := ⟨a.const - c, a.terms⟩

/-- Adds `c` to the coefficient of `n` in a term list, erasing the entry if
the sum is zero — the zero-erasing update `Polynomial::operator+=` performs. -/
def addTermAux : List (String × Int) → String → Int → List (String × Int)
  | [], n, c => if c = 0 then [] else [(n, c)]
  | t :: ts, n, c =>
    if t.1 = n then (if t.2 + c = 0 then ts else (n, t.2 + c) :: ts)
    else t :: addTermAux ts n c

/-- `result += Polynomial<int64_t>(n, c)`. -/
def Affine.addTerm (a : Affine) (n : String) (c : Int) : Affine :=
  ⟨a.const, addTermAux a.terms n c⟩

/-- Unary negation of an affine expression (`lhs = -lhs`). -/
def Affine.neg (a : Affine) : Affine :=
  ⟨-a.const, a.terms.map (fun t => (t.1, -t.2))⟩

/-- `math::Polynomial<Rational>`: the raw `std::map` from index name to
rational coefficient, with the constant term stored under the key `""`.
Canonical maps have distinct keys and no zero coefficients. -/
structure Poly where
  map : List (String × Rat)
deriving DecidableEq, Repr, Inhabited

/-- `Polynomial::constant()`: the coefficient of `""`, zero if absent. -/
def Poly.constant (p : Poly) : Rat :=
  ((p.map.find? (fun t => t.1 = "")).map (·.2)).getD 0

/-- The indexed (nonempty-name) entries of the polynomial's map. -/
def Poly.idxTerms (p : Poly) : List (String × Rat) :=
  p.map.filter (fun t => t.1 ≠ "")

/-- `stripe::RefDir`. -/
inductive RefDir where
  | In
  | Out
  | InOut
  | None
deriving DecidableEq, Repr

/-- `stripe::Index`: a declared loop index (name, range).  `range` is
`uint64_t` in the source; ranges computed from `int64_t` bounds go through
`Bound.range` below, which models the unsigned conversion. -/
structure Index where
  name : String
  range : Nat
deriving DecidableEq, Repr, Inhabited

/-- `uint64_t range = kvp.second.max - kvp.second.min + 1` (gen_stripe.cc:207):
int64 arithmetic converted to `uint64_t`, i.e. reduced modulo `2^64`. -/
def Bound.range (b : Bound) : Nat :=
  ((b.max - b.min + 1) % (2 ^ 64 : Int)).toNat

/-- `stripe::Refinement`.  The `location` and `bank_dim` fields are always
left at their defaults by this generator and are omitted. -/
structure Refinement where
  dir : RefDir
  from_ : String
  into : String
  access : List Affine
  shape : TensorShape
  agg_op : String
  is_const : Bool
  offset : Int
deriving DecidableEq, Repr

/-- The literal value of a `stripe::Constant` statement: `iconst` is the
`int64_t` payload; `fconst` is a `double`, carried as its bit pattern. -/
inductive ConstValue where
  | int (v : Int)
  | float (bits : Nat)
deriving DecidableEq, Repr

/-- `stripe::Block`, parametrized by the type of its child statements.  The
source's `Block` is one recursive type, but this generator populates exactly
three levels — the program block holds only the `main` block, `main` holds
kernel blocks and `Special` statements, and kernels hold only scalar
statements — so the tree is modeled stratified (see `Block`, `MainBlock`,
`ProgramBlock`).  Tags are an insertion-ordered list standing for the
source's `std::set<std::string>` (only membership is ever consulted). -/
structure BlockOf (σ : Type) where
  name : String
  comments : String
  tags : List String
  idxs : List Index
  refs : List Refinement
  constraints : List Affine
  stmts : List σ
deriving DecidableEq, Repr

/-- The scalar-level `stripe::Statement` variants that appear inside kernel
blocks: `Load`, `Store`, `Constant`, `Intrinsic`. -/
inductive Stmt where
  | load (from_ : String) (into : String)
  | store (from_ : String) (into : String)
  | constant (name : String) (value : ConstValue)
  | intrinsic (name : String) (inputs : List String) (outputs : List String)
deriving DecidableEq, Repr

/-- A kernel block: holds only scalar statements. -/
abbrev Block := BlockOf Stmt

/-- The `stripe::Statement` variants appearing in `main`'s statement list:
nested kernel `Block`s and `Special` statements. -/
inductive MainStmt where
  | sub (b : Block)
  | special (name : String) (params : List String) (inputs : List String)
      (outputs : List String)
deriving DecidableEq, Repr

/-- The `main` block: its statements are kernel blocks and specials. -/
abbrev MainBlock := BlockOf MainStmt

/-- The root program block: its only statements are child blocks (`main`). -/
abbrev ProgramBlock := BlockOf MainBlock

/-- `Block::set_tag`. -/
def BlockOf.setTag {σ : Type} (b : BlockOf σ) (t : String) : BlockOf σ :=
  { b with tags := b.tags ++ [t] }

/-- `Block::idx_by_name`: the declared index with the given name, if any. -/
def BlockOf.idx_by_name {σ : Type} (b : BlockOf σ) (n : String) : Option Index :=
  b.idxs.find? (fun i => i.name = n)

/-- `lang::Binding` (bindings.h, outside the core file): the tagged variant a
name is bound to — TENSOR / ICONST / FCONST / TUPLE.  The double payload of
FCONST is carried as a bit pattern; tuple contents are never consulted. -/
inductive Binding where
  | tensor (shape : TensorShape)
  | iconst (v : Int)
  | fconst (bits : Nat)
  | tuple
deriving DecidableEq, Repr

/-- The `shape` member of a `Binding`; default-constructed for non-tensor
bindings (never consulted for those in this file's defined executions). -/
def Binding.shape : Binding → TensorShape
  | .tensor s => s
  | _ => default

/-- The binder's output `vars_`: a name → binding map (`std::map`), modeled
as an association list with unique keys. -/
abbrev Bindings := List (String × Binding)

/-- `vars_.find(n)` as an optional lookup. -/
def lookupVar (vars : Bindings) (n : String) : Option Binding :=
  (vars.find? (fun t => t.1 = n)).map (·.2)

/-- Lookup in solved index bounds (`bounds.at(n)` sans the throw). -/
def lookupBound (bounds : List (String × Bound)) (n : String) : Option Bound :=
  (bounds.find? (fun t => t.1 = n)).map (·.2)

/-- The error taxonomy: every `throw` site of the core file plus the fatal
failures its external collaborators can raise through it. -/
inductive Err where
  | unknownShape
  | nonIntegerTerm
  | missingBound
  | notImplemented
  | unsupportedArity
  | undefinedBehavior
  | boundsFailure
deriving DecidableEq, Repr

/-- `lang::AggregationOp` (ops.h, outside the core file); `none` covers the
values reaching `GetAggOp`'s `default:` branch. -/
inductive AggregationOp where
  | sum
  | max
  | min
  | prod
  | assign
  | none
deriving DecidableEq, Repr

/-- `lang::CombinationOp` (ops.h, outside the core file); `none` covers the
values reaching `GetComboOp`'s `default:` branch. -/
inductive CombinationOp where
  | none
  | multiply
  | plus
  | eq
  | cond
deriving DecidableEq, Repr

namespace Intrinsic

/-- Modelled from the spec: `stripe::Intrinsic::ASSIGN` (stripe.cc, outside
the core file); §4.4 names the plain combining intrinsic "assign". -/
def ASSIGN : String := "assign"

/-- Modelled from the spec: `stripe::Intrinsic::SUM`; §8's scenario tags a
"sum"-aggregation kernel `agg_op_add`, so SUM is the string "add". -/
def SUM : String := "add"

/-- Modelled from the spec: `stripe::Intrinsic::MAX`. -/
def MAX : String := "max"

/-- Modelled from the spec: `stripe::Intrinsic::MIN`. -/
def MIN : String := "min"

/-- Modelled from the spec: `stripe::Intrinsic::PROD`; the product
aggregation multiplies, hence "mul". -/
def PROD : String := "mul"

/-- Modelled from the spec: `stripe::Intrinsic::MUL`; §4.4 names the
combination intrinsics mul/add/eq/cond. -/
def MUL : String := "mul"

/-- Modelled from the spec: `stripe::Intrinsic::ADD`. -/
def ADD : String := "add"

/-- Modelled from the spec: `stripe::Intrinsic::EQ`. -/
def EQ : String := "eq"

/-- Modelled from the spec: `stripe::Intrinsic::COND`. -/
def COND : String := "cond"

end Intrinsic

namespace Special

/-- Modelled from the spec: `stripe::Special::ZERO` (stripe.cc, outside the
core file); the zero-fill initialization special. -/
def ZERO : String := "zero"

/-- Modelled from the spec: `stripe::Special::COPY`; the copy-default
initialization special. -/
def COPY : String := "copy"

end Special

/-- `lang::TensorSpec` (ops.h): a bound-value name plus one rational
polynomial per tensor dimension. -/
structure TensorSpec where
  id : String
  spec : List Poly
deriving DecidableEq, Repr, Inhabited

/-- `lang::Contraction` (ops.h, structure per spec §3): ordered specs
(output first), aggregation and combination operators, optional default-fill
name, and the defract-suppression flag. -/
structure Contraction where
  specs : List TensorSpec
  agg_op : AggregationOp
  comb_op : CombinationOp
  use_default : String
  no_defract : Bool
deriving DecidableEq, Repr

/-- An `Op::FUNCTION`'s callee record: function name, parameters, and
whether the name is a registered special op (`op.f.is_special()`, computed
outside the core file, carried as data). -/
structure FunctionInfo where
  fn : String
  params : List String
  isSpecial : Bool
deriving DecidableEq, Repr

/-- `Op::tag`. -/
inductive OpTag where
  | contraction
  | function
  | constant
deriving DecidableEq, Repr

/-- An operation attribute (`attr.name()`, `attr.params(...)`). -/
structure OpAttribute where
  name : String
  params : List String
deriving DecidableEq, Repr

/-- `lang::Op`: one parsed operation. -/
structure Op where
  tag : OpTag
  f : FunctionInfo
  c : Contraction
  inputs : List String
  output : String
  attributes : List OpAttribute
deriving DecidableEq, Repr

/-- `math::RangeConstraint` (bound.h): `0 ≤ poly < range`. -/
structure RangeConstraint where
  poly : Poly
  range : Int
deriving DecidableEq, Repr

/-- `math::SimpleConstraint` (bound.h): `poly ≤ rhs`. -/
structure SimpleConstraint where
  poly : Poly
  rhs : Int
deriving DecidableEq, Repr

/-- The external collaborators (parser/binder excluded — their outputs are
passed directly): the pure polynomial/constraint transforms used by
`CompileContraction`, the bounds solver, and `to_string(op)` used for block
comments.  All live outside the core source file. -/
structure Externals where
  opToString : Op → String
  constrainIndexVarsToInts : Contraction → Contraction
  gatherConstraints : Contraction → List TensorShape → List RangeConstraint
  reduceOutputPolynomials : Contraction → List RangeConstraint → Contraction
  mergeParallelConstraints : List RangeConstraint → List RangeConstraint
  defract : Contraction → List RangeConstraint → Contraction
  computeBounds : List RangeConstraint →
    Except Err (List (String × Bound) × List SimpleConstraint)

/-- The run descriptor (`RunInfo`): program name, const-input set, and the
named input/output shape maps (ordered as the source's `std::map`). -/
structure RunInfo where
  program_name : String
  const_inputs : List String
  input_shapes : List (String × TensorShape)
  output_shapes : List (String × TensorShape)

/-- `StripeGenerator::ScalarName` (gen_stripe.cc:429-431). -/
def ScalarName (n : String) : String := "$" ++ n

/-- `StripeGenerator::IsConst` (gen_stripe.cc:546-549). -/
def IsConst (const_inputs : List String) (n : String) : Bool :=
  const_inputs.contains n

/-- `StripeGenerator::GetShape` (gen_stripe.cc:433-439). -/
def GetShape (vars : Bindings) (n : String) : Except Err TensorShape :=
  match lookupVar vars n with
  | some b => .ok b.shape
  | none => .error .unknownShape

/-- `StripeGenerator::ScalarShape` (gen_stripe.cc:441-451): same type, each
dimension's size collapsed to 1 (stride kept).  `byte_size()` of the scalar
view is never consulted, so its carried value is 0. -/
def ScalarShape (vars : Bindings) (n : String) : Except Err TensorShape :=
  match lookupVar vars n with
  | some b => .ok ⟨b.shape.type, b.shape.dims.map (fun d => ⟨d.stride, 1⟩), 0⟩
  | none => .error .unknownShape

/-- `StripeGenerator::GetAggOp` (gen_stripe.cc:473-488). -/
def GetAggOp : AggregationOp → String
  | .sum => Intrinsic.SUM
  | .max => Intrinsic.MAX
  | .min => Intrinsic.MIN
  | .prod => Intrinsic.PROD
  | .assign => Intrinsic.ASSIGN
  | .none => ""

/-- `StripeGenerator::GetComboOp` (gen_stripe.cc:490-503). -/
def GetComboOp : CombinationOp → String
  | .multiply => Intrinsic.MUL
  | .plus => Intrinsic.ADD
  | .eq => Intrinsic.EQ
  | .cond => Intrinsic.COND
  | .none => ""

/-- The loop body of `StripeGenerator::Integerize` (gen_stripe.cc:453-471),
processing the polynomial's map entries in order against solved bounds.
A term with non-unit rational denominator raises `NonIntegerTerm`; a missing
bound models `bounds.at`'s `std::out_of_range`. -/
def IntegerizeGo (bounds : List (String × Bound)) :
    List (String × Rat) → Affine → Except Err Affine
  | [], acc => .ok acc
  | term :: rest, acc =>
    if term.2.den ≠ 1 then .error .nonIntegerTerm
    else if term.1 = "" then IntegerizeGo bounds rest (acc.addConst term.2.num)
    else
      match lookupBound bounds term.1 with
      | Option.none => .error .missingBound
      | some bound =>
        let acc1 := acc.addConst (term.2.num * bound.min)
        let acc2 := if bound.min ≠ bound.max then acc1.addTerm term.1 term.2.num else acc1
        IntegerizeGo bounds rest acc2

/-- `StripeGenerator::Integerize` (gen_stripe.cc:453-471). -/
def Integerize (poly : Poly) (bounds : List (String × Bound)) : Except Err Affine :=
  IntegerizeGo bounds poly.map Affine.zero

/-- Outcome of the per-dimension output-access loop of `NeedsInitialize`
(gen_stripe.cc:251-268): `bail` is an early `return true`; `ok` carries the
collected set of output index names. -/
inductive DimOutcome where
  | bail
  | ok (out_idxs : List String)
deriving DecidableEq, Repr

/-- The per-dimension loop of `NeedsInitialize` (gen_stripe.cc:251-268),
walking output dimensions against the output refinement's access expressions.
`Option.none` models undefined behavior in the source (out-of-range
`access[i]`, or `idx_by_name` returning null and being dereferenced). -/
def dimLoop (idxs : List Index) :
    List Affine → List TensorDimension → List String → Option DimOutcome
  | _, [], seen => some (.ok seen)
  | [], _ :: _, _ => Option.none
  | a :: as_, d :: ds, seen =>
    if a = Affine.zero ∧ d.size = 1 then dimLoop idxs as_ ds seen
    else if a.const ≠ 0 ∨ a.getMap.length ≠ 1 ∨ (a.getMap.headD ("", 0)).2 ≠ 1 then
      some .bail
    else
      let idx := (a.getMap.headD ("", 0)).1
      if idx ∈ seen then some .bail
      else
        match idxs.find? (fun i => i.name = idx) with
        | Option.none => Option.none
        | some ix => if ix.range ≠ d.size then some .bail else dimLoop idxs as_ ds (seen ++ [idx])

/-- One constraint's inner loop of `NeedsInitialize` (gen_stripe.cc:272-278):
whether the constraint's map mentions any index outside the output set
(`any_inputs`). -/
def anyInputs (out_idxs : List String) (con : Affine) : Bool :=
  con.getMap.any (fun kvp => kvp.1 ≠ "" && !(out_idxs.contains kvp.1))

/-- `StripeGenerator::NeedsInitialize` (gen_stripe.cc:247-284).  Reads the
block's first refinement as the output refinement; `Option.none` models the
source's undefined behavior (`refs.front()` on an empty list, or the
failures inside `dimLoop`). -/
def NeedsInitialize (block : Block) (out_shape : TensorShape) : Option Bool :=
  match block.refs.head? with
  | Option.none => Option.none
  | some ref =>
    match dimLoop block.idxs ref.access out_shape.dims [] with
    | Option.none => Option.none
    | some .bail => some true
    | some (.ok out_idxs) =>
      some (block.constraints.any (fun con => !(anyInputs out_idxs con)))

/-- The display-name computation of `StripeGenerator::AddKernel`
(gen_stripe.cc:396-405): `kernel_<n>` with `n` the parent's statement count
before the push, overridden by the last nonempty-params `pid` attribute. -/
def kernelDisplayName (parentStmtCount : Nat) (op : Op) : String :=
  op.attributes.foldl
    (fun nm attr => if attr.name = "pid" ∧ attr.params ≠ [] then attr.params.headD "" else nm)
    ("kernel_" ++ toString parentStmtCount)

/-- `StripeGenerator::AddKernel` (gen_stripe.cc:396-408): the freshly created
kernel block, tagged "kernel".  The source pushes it into the parent's
statement list immediately and mutates it afterwards through the shared
pointer; here the finished kernel is appended at the corresponding position
by the caller, which yields the same final tree. -/
def AddKernel (ext : Externals) (parent : MainBlock) (op : Op) : Block :=
  { name := kernelDisplayName parent.stmts.length op
    comments := ext.opToString op
    tags := ["kernel"]
    idxs := [], refs := [], constraints := [], stmts := [] }

/-- `StripeGenerator::MakeShapes` (gen_stripe.cc:410-416). -/
def MakeShapes (vars : Bindings) (con : Contraction) : Except Err (List TensorShape) :=
  con.specs.mapM (fun spec => GetShape vars spec.id)

/-- The "fancy" classification loop of `CompileContraction`
(gen_stripe.cc:514-521) over the output spec's per-dimension polynomials:
`poly.getMap().size() > 2 || (size == 2 && poly.constant() == 0)`, where the
map's size counts the constant entry when the constant is nonzero. -/
def IsFancy (out_spec : List Poly) : Bool :=
  out_spec.any (fun poly =>
    decide (2 < poly.map.length) ||
      (decide (poly.map.length = 2) && decide (poly.constant = 0)))

/-- `StripeGenerator::CompileContraction` (gen_stripe.cc:505-544),
parametrized by the external transforms.  The fancy check runs on the
original contraction's output spec; reduction applies to the
integral-constrained contraction when fancy and not suppressed. -/
def CompileContraction (ext : Externals) (cion : Contraction)
    (shapes : List TensorShape) : Except Err (Contraction × List RangeConstraint) :=
  if cion.specs.length ≠ 2 ∧ cion.specs.length ≠ 3 ∧ cion.specs.length ≠ 4 then
    .error .unsupportedArity
  else
    let integral_cion := ext.constrainIndexVarsToInts cion
    let fancy := IsFancy (cion.specs.headD default).spec
    let cons0 := ext.gatherConstraints integral_cion shapes
    let rc :=
      if fancy && !cion.no_defract then
        let r := ext.reduceOutputPolynomials integral_cion cons0
        (r, ext.gatherConstraints r shapes)
      else (integral_cion, cons0)
    let cons1 := ext.mergeParallelConstraints rc.2
    let defracted := ext.defract rc.1 cons1
    let cons2 := ext.gatherConstraints defracted shapes
    .ok (defracted, ext.mergeParallelConstraints cons2)

/-- The `i > 0` iterations of the operand-spec loop of `ProcessContraction`
(gen_stripe.cc:174-203): each input spec yields an inlined Constant
statement (FCONST/ICONST bindings) or an In refinement plus a Load; its
scalar name is recorded in order in either case. -/
def buildInputSpecs (vars : Bindings) (const_inputs : List String)
    (bounds : List (String × Bound)) :
    List TensorSpec → Except Err (List Refinement × List Stmt × List String)
  | [] => .ok ([], [], [])
  | spec :: rest => do
    let shape ← ScalarShape vars spec.id
    let access ← spec.spec.mapM (fun p => Integerize p bounds)
    let scalar_name := ScalarName spec.id
    match lookupVar vars spec.id with
    | some (.fconst v) => do
      let (rs, ss, sc) ← buildInputSpecs vars const_inputs bounds rest
      .ok (rs, .constant scalar_name (.float v) :: ss, scalar_name :: sc)
    | some (.iconst v) => do
      let (rs, ss, sc) ← buildInputSpecs vars const_inputs bounds rest
      .ok (rs, .constant scalar_name (.int v) :: ss, scalar_name :: sc)
    | _ => do
      let r : Refinement :=
        ⟨.In, spec.id, spec.id, access, shape, "", IsConst const_inputs spec.id, 0⟩
      let (rs, ss, sc) ← buildInputSpecs vars const_inputs bounds rest
      .ok (r :: rs, .load spec.id scalar_name :: ss, scalar_name :: sc)

/-- The operand-spec loop of `ProcessContraction` (gen_stripe.cc:155-204):
the `i == 0` iteration emits the Out refinement carrying the aggregation op;
the remaining iterations are `buildInputSpecs`. -/
def buildSpecs (vars : Bindings) (const_inputs : List String)
    (bounds : List (String × Bound)) (aggStr : String) :
    List TensorSpec → Except Err (List Refinement × List Stmt × List String)
  | [] => .ok ([], [], [])
  | spec :: rest => do
    let shape ← ScalarShape vars spec.id
    let access ← spec.spec.mapM (fun p => Integerize p bounds)
    let r : Refinement := ⟨.Out, spec.id, spec.id, access, shape, aggStr, false, 0⟩
    let (rs, ss, sc) ← buildInputSpecs vars const_inputs bounds rest
    .ok (r :: rs, ss, sc)

/-- The index-declaration loop of `ProcessContraction` (gen_stripe.cc:206-212):
one loop index per bound whose range is not 1. -/
def buildIdxs (bounds : List (String × Bound)) : List Index :=
  bounds.filterMap (fun kvp =>
    let range := kvp.2.range
    if range = 1 then Option.none else some ⟨kvp.1, range⟩)

/-- The constraint loop of `ProcessContraction` (gen_stripe.cc:213-218):
each residual `poly ≤ rhs` becomes the affine `rhs - integerize(poly) ≥ 0`. -/
def buildConstraints (bounds : List (String × Bound))
    (simple_cons : List SimpleConstraint) : Except Err (List Affine) :=
  simple_cons.mapM (fun con => do
    let lhs ← Integerize con.poly bounds
    .ok (Affine.neg (lhs.subConst con.rhs)))

/-- The combination-op section of `ProcessContraction` (gen_stripe.cc:232-241):
the statements to append and the tags to add.  With more than one scalar
input, a named combination intrinsic is emitted only when the combination op
maps to a nonempty name; with at most one scalar input, a plain "assign". -/
def comboStmts (comb_op : CombinationOp) (scalar_inputs : List String)
    (output : String) : List Stmt × List String :=
  if 1 < scalar_inputs.length then
    let combo_op := GetComboOp comb_op
    if combo_op ≠ "" then
      ([.intrinsic combo_op scalar_inputs [ScalarName output]], ["comb_op_" ++ combo_op])
    else ([], [])
  else ([.intrinsic "assign" scalar_inputs [ScalarName output]], [])

/-- The contraction kernel as it stands at gen_stripe.cc:220 (refs, idxs and
constraints populated; combination intrinsic and store not yet appended) —
the state `NeedsInitialize` inspects. -/
def contractionKernelBase (ext : Externals) (main : MainBlock) (op : Op)
    (cion : Contraction) (refs : List Refinement) (stmts : List Stmt)
    (cons : List Affine) (bounds : List (String × Bound)) : Block :=
  { ((AddKernel ext main op).setTag "contraction").setTag
      ("agg_op_" ++ GetAggOp cion.agg_op) with
    refs := refs, stmts := stmts, idxs := buildIdxs bounds, constraints := cons }

/-- The finished contraction kernel (gen_stripe.cc:232-244): the combination
section's statements and tags, then the final Store. -/
def contractionKernelFinal (base : Block) (comb_op : CombinationOp)
    (scalar_inputs : List String) (output : String) : Block :=
  { base with
      stmts := base.stmts ++ (comboStmts comb_op scalar_inputs output).1 ++
        [.store (ScalarName output) output],
      tags := base.tags ++ (comboStmts comb_op scalar_inputs output).2 }

/-- The kernel-construction part of `ProcessContraction`
(gen_stripe.cc:151-245 minus the compile/bounds calls and the main-block
update): builds the finished kernel block and reports whether
initialization is needed (the `NeedsInitialize` verdict on the kernel as it
stands after refs/idxs/constraints are set). -/
def BuildContractionKernel (ext : Externals) (vars : Bindings)
    (const_inputs : List String) (main : MainBlock) (op : Op)
    (cion : Contraction) (bounds : List (String × Bound))
    (simple_cons : List SimpleConstraint) (shape0 : TensorShape) :
    Except Err (Block × Bool) := do
  let (refs, stmts, scalar_inputs) ←
    buildSpecs vars const_inputs bounds (GetAggOp cion.agg_op) cion.specs
  let cons ← buildConstraints bounds simple_cons
  let base := contractionKernelBase ext main op cion refs stmts cons bounds
  match NeedsInitialize base shape0 with
  | Option.none => .error .undefinedBehavior
  | some needs =>
    .ok (contractionKernelFinal base cion.comb_op scalar_inputs op.output, needs)

/-- The initialization Special of `ProcessContraction` (gen_stripe.cc:220-230):
ZERO with no inputs when the contraction has no default fill, otherwise COPY
of the default; single output is the operation's output. -/
def initSpecial (op : Op) : MainStmt :=
  if op.c.use_default = "" then .special Special.ZERO [] [] [op.output]
  else .special Special.COPY [] [op.c.use_default] [op.output]

/-- `StripeGenerator::ProcessContraction` (gen_stripe.cc:131-245).  A zero
`byte_size()` output skips the operation entirely.  Otherwise the kernel is
compiled and appended to `main`'s statements, preceded by the initialization
Special when required (the source pushes the kernel first and inserts the
Special before the last statement; the final list is the same). -/
def ProcessContraction (ext : Externals) (vars : Bindings)
    (const_inputs : List String) (main : MainBlock) (op : Op) :
    Except Err MainBlock := do
  let outShape ← GetShape vars op.output
  if outShape.byteSize = 0 then
    return main
  else
    let shapes ← MakeShapes vars op.c
    let (cion, range_cons) ← CompileContraction ext op.c shapes
    let (bounds, simple_cons) ← ext.computeBounds range_cons
    let (kernel, needs) ←
      BuildContractionKernel ext vars const_inputs main op cion bounds
        simple_cons (shapes.headD default)
    let initStmts : List MainStmt := if needs then [initSpecial op] else []
    return { main with stmts := main.stmts ++ initStmts ++ [.sub kernel] }

/-- The loop-index declarations of `ProcessElementwise` (gen_stripe.cc:293-304):
one index `i<k+1>` per output dimension, range = dimension size. -/
def ewIdxs (out_shape : TensorShape) : List Index :=
  out_shape.dims.enum.map (fun p => ⟨"i" ++ toString (p.1 + 1), p.2.size⟩)

/-- The output access expressions of `ProcessElementwise`
(gen_stripe.cc:293-304): the loop index when the dimension's size exceeds 1,
else the constant 0. -/
def ewOutAccess (out_shape : TensorShape) : List Affine :=
  out_shape.dims.enum.map (fun p =>
    if 1 < p.2.size then Affine.var ("i" ++ toString (p.1 + 1)) else Affine.zero)

/-- The broadcast access computation of `ProcessElementwise`
(gen_stripe.cc:312-323): with `diff = out_rank - in_rank` (a signed int),
output dimensions `i ≥ diff` align to input dimension `i - diff`, yielding
the output's loop index when that input dimension's size exceeds 1 and the
zero affine otherwise.  Both `getD` defaults are unreachable: `i - diff`
always lands inside `in_dims`, and `kidxs` has one entry per output
dimension. -/
def broadcastAccess (kidxs : List Index) (out_dims in_dims : List TensorDimension) :
    List Affine :=
  let diff : Int := (out_dims.length : Int) - (in_dims.length : Int)
  (List.range out_dims.length).filterMap (fun (i : Nat) =>
    if diff ≤ (i : Int) then
      let dim := in_dims.getD ((i : Int) - diff).toNat default
      some (if 1 < dim.size then Affine.var (kidxs.getD i default).name else Affine.zero)
    else Option.none)

/-- The input loop of `ProcessElementwise` (gen_stripe.cc:306-349): tensor
inputs get an In refinement (with broadcast access) and a Load; integer and
float constants become inlined Constant statements; tuples raise
NotImplemented; a name missing from the binder map models `vars_.at`'s
throw. -/
def ewInputs (vars : Bindings) (const_inputs : List String) (kidxs : List Index)
    (out_dims : List TensorDimension) :
    List String → Except Err (List Refinement × List Stmt)
  | [] => .ok ([], [])
  | input :: rest => do
    match lookupVar vars input with
    | Option.none => .error .unknownShape
    | some (.tensor bshape) => do
      let access := broadcastAccess kidxs out_dims bshape.dims
      let sshape ← ScalarShape vars input
      let r : Refinement :=
        ⟨.In, input, input, access, sshape, "", IsConst const_inputs input, 0⟩
      let (rs, ss) ← ewInputs vars const_inputs kidxs out_dims rest
      .ok (r :: rs, .load input (ScalarName input) :: ss)
    | some (.iconst v) => do
      let (rs, ss) ← ewInputs vars const_inputs kidxs out_dims rest
      .ok (rs, .constant (ScalarName input) (.int v) :: ss)
    | some (.fconst v) => do
      let (rs, ss) ← ewInputs vars const_inputs kidxs out_dims rest
      .ok (rs, .constant (ScalarName input) (.float v) :: ss)
    | some .tuple => .error .notImplemented

/-- The finished elementwise kernel (gen_stripe.cc:286-375): range-1 indices
erased, input refinements followed by the Out refinement, then loads and
constants, the function intrinsic over all scalar inputs, and the store. -/
def ewKernelBlock (ext : Externals) (main : MainBlock) (op : Op)
    (out_shape : TensorShape) (irefs : List Refinement) (istmts : List Stmt)
    (oshape : TensorShape) : Block :=
  { ((AddKernel ext main op).setTag "eltwise").setTag ("eltwise_" ++ op.f.fn) with
      idxs := (ewIdxs out_shape).filter (fun idx => idx.range ≠ 1)
      refs := irefs ++
        [⟨.Out, op.output, op.output, ewOutAccess out_shape, oshape, "", false, 0⟩]
      stmts := istmts ++
        [.intrinsic op.f.fn (op.inputs.map ScalarName) [ScalarName op.output],
         .store (ScalarName op.output) op.output] }

/-- `StripeGenerator::ProcessElementwise` (gen_stripe.cc:286-376). -/
def ProcessElementwise (ext : Externals) (vars : Bindings)
    (const_inputs : List String) (main : MainBlock) (op : Op) :
    Except Err MainBlock := do
  let out_shape ← GetShape vars op.output
  let (irefs, istmts) ←
    ewInputs vars const_inputs (ewIdxs out_shape) out_shape.dims op.inputs
  let oshape ← ScalarShape vars op.output
  return { main with
    stmts := main.stmts ++
      [.sub (ewKernelBlock ext main op out_shape irefs istmts oshape)] }

/-- `StripeGenerator::ProcessSpecial` (gen_stripe.cc:378-385). -/
def ProcessSpecial (main : MainBlock) (op : Op) : MainBlock :=
  { main with stmts := main.stmts ++ [.special op.f.fn op.f.params op.inputs [op.output]] }

/-- `StripeGenerator::ProcessReshape` (gen_stripe.cc:387-394): like a
special, but restricted to the first input (`op.inputs[0]`; the `headD`
default models the source's precondition that reshape has an input). -/
def ProcessReshape (main : MainBlock) (op : Op) : MainBlock :=
  { main with
      stmts := main.stmts ++
        [.special op.f.fn op.f.params [op.inputs.headD ""] [op.output]] }

/-- The dispatch of `Run`'s operation loop (gen_stripe.cc:41-60). -/
def processOp (ext : Externals) (vars : Bindings) (const_inputs : List String)
    (main : MainBlock) (op : Op) : Except Err MainBlock :=
  match op.tag with
  | .contraction => ProcessContraction ext vars const_inputs main op
  | .function =>
    if op.f.isSpecial then .ok (ProcessSpecial main op)
    else if op.f.fn = "reshape" then .ok (ProcessReshape main op)
    else ProcessElementwise ext vars const_inputs main op
  | .constant => .ok main

/-- The program-scope declaration refinement of `AddDecls`
(gen_stripe.cc:91-102): direction None, zero access per dimension. -/
def progDeclRef (const_inputs : List String) (item : String × TensorShape) :
    Refinement :=
  ⟨.None, "", item.1, List.replicate item.2.dims.length Affine.zero, item.2, "",
    IsConst const_inputs item.1, 0⟩

/-- The main-scope In refinement for an external input (gen_stripe.cc:104-115). -/
def mainInRef (const_inputs : List String) (item : String × TensorShape) :
    Refinement :=
  ⟨.In, item.1, item.1, List.replicate item.2.dims.length Affine.zero, item.2, "",
    IsConst const_inputs item.1, 0⟩

/-- The main-scope Out refinement for an external output
(gen_stripe.cc:117-126): aggregation op "assign". -/
def mainOutRef (item : String × TensorShape) : Refinement :=
  ⟨.Out, item.1, item.1, List.replicate item.2.dims.length Affine.zero, item.2,
    Intrinsic.ASSIGN, false, 0⟩

/-- `StripeGenerator::AddDecls` (gen_stripe.cc:87-129): appends one
program-scope None refinement per name and one main-scope In (inputs) or
Out (outputs) refinement; the loop's per-item appends are batched into one
append each, yielding the same final lists. -/
def AddDecls (const_inputs : List String) (program : ProgramBlock)
    (main : MainBlock) (shapes : List (String × TensorShape)) (is_input : Bool) :
    ProgramBlock × MainBlock :=
  ({ program with refs := program.refs ++ shapes.map (progDeclRef const_inputs) },
   { main with
      refs := main.refs ++ shapes.map (fun item =>
        if is_input then mainInRef const_inputs item else mainOutRef item) })

/-- The temporaries loop of `Run` (gen_stripe.cc:61-81): a main-scope None
refinement (zero access, no aggregation) for every bound value not recorded
as external whose kind is Tensor, in binder-map order. -/
def tempRefs (const_inputs : List String) (externals : List String)
    (vars : Bindings) : List Refinement :=
  vars.filterMap (fun item =>
    if externals.contains item.1 then Option.none
    else
      match item.2 with
      | .tensor shape =>
        some (⟨.None, "", item.1, List.replicate shape.dims.length Affine.zero,
          shape, "", IsConst const_inputs item.1, 0⟩ : Refinement)
      | _ => Option.none)

/-- The fresh program block of `Run` (gen_stripe.cc:25-27): tagged
"program", named after the run descriptor. -/
def programInit (runinfo : RunInfo) : ProgramBlock :=
  { name := runinfo.program_name, comments := "", tags := ["program"],
    idxs := [], refs := [], constraints := [], stmts := [] }

/-- The fresh `main` block of `Run` (gen_stripe.cc:33-36). -/
def mainInit : MainBlock :=
  { name := "main", comments := "", tags := ["main"],
    idxs := [], refs := [], constraints := [], stmts := [] }

/-- The two `AddDecls` calls of `Run` (gen_stripe.cc:37-39): declarations
for the external inputs, then for the external outputs. -/
def runDecls (runinfo : RunInfo) : ProgramBlock × MainBlock :=
  let pm1 := AddDecls runinfo.const_inputs (programInit runinfo) mainInit
    runinfo.input_shapes true
  AddDecls runinfo.const_inputs pm1.1 pm1.2 runinfo.output_shapes false

/-- The names recorded as external by the `AddDecls` calls
(gen_stripe.cc:89): all input and output names. -/
def externalNames (runinfo : RunInfo) : List String :=
  runinfo.input_shapes.map (·.1) ++ runinfo.output_shapes.map (·.1)

/-- `StripeGenerator::Run` (gen_stripe.cc:24-84), the Program Assembler.
Parsing and binding (the constructor, gen_stripe.cc:18-22) are external;
their outputs `ops` and `vars` are passed in.  The source pushes `main`
into the program immediately and keeps mutating it; here the finished main
is attached at the end, yielding the same final tree. -/
def Run (ext : Externals) (runinfo : RunInfo) (ops : List Op) (vars : Bindings) :
    Except Err ProgramBlock := do
  let main3 ← ops.foldlM (processOp ext vars runinfo.const_inputs)
    (runDecls runinfo).2
  let main4 : MainBlock :=
    { main3 with
        refs := main3.refs ++
          tempRefs runinfo.const_inputs (externalNames runinfo) vars }
  return { (runDecls runinfo).1 with
    stmts := (runDecls runinfo).1.stmts ++ [main4] }

/-! ## Supporting definitions and lemmas for the claims -/

/-- The solved lower bound of an index (0 when absent; only used under a
coverage hypothesis making the lookup succeed). -/
def boundMin (bounds : List (String × Bound)) (n : String) : Int :=
  ((lookupBound bounds n).getD default).min

/-- The solved upper bound of an index (0 when absent). -/
def boundMax (bounds : List (String × Bound)) (n : String) : Int :=
  ((lookupBound bounds n).getD default).max

/-- The bound-shift constant contributed by the indexed terms of a rational
polynomial's map: the sum of `numerator(c) * bounds[i].min` over entries with
nonempty index name. -/
def idxMinSum (bounds : List (String × Bound)) (l : List (String × Rat)) : Int :=
  l.foldr (fun t s => (if t.1 = "" then 0 else t.2.num * boundMin bounds t.1) + s) 0

/-- The whole constant accumulated by `Integerize`: the `""` entry directly,
and `numerator(c) * bounds[i].min` for each indexed entry. -/
def constSum (bounds : List (String × Bound)) (l : List (String × Rat)) : Int :=
  l.foldr (fun t s => (if t.1 = "" then t.2.num else t.2.num * boundMin bounds t.1) + s) 0

/-- The index coefficients retained by `Integerize`: entries with nonempty
name whose bound is non-degenerate (`min ≠ max`), with integer coefficient
`numerator(c)`. -/
def retainedTerms (bounds : List (String × Bound)) (l : List (String × Rat)) :
    List (String × Int) :=
  l.filterMap (fun t =>
    if t.1 = "" then Option.none
    else if boundMin bounds t.1 ≠ boundMax bounds t.1 then some (t.1, t.2.num)
    else Option.none)

lemma addTermAux_fresh (ts : List (String × Int)) (n : String) (c : Int)
    (hfresh : ∀ s ∈ ts, s.1 ≠ n) (hc : c ≠ 0) :
    addTermAux ts n c = ts ++ [(n, c)] := by
  induction ts with
  | nil => simp [addTermAux, hc]
  | cons t ts ih =>
    have ht : t.1 ≠ n := hfresh t (by simp)
    simp only [addTermAux, if_neg ht, List.cons_append]
    rw [ih (fun s hs => hfresh s (by simp [hs]))]
lemma constSum_of_no_const (bounds : List (String × Bound))
    (l : List (String × Rat)) (h : ∀ t ∈ l, t.1 ≠ "") :
    constSum bounds l = idxMinSum bounds l := by
  induction l with
  | nil => rfl
  | cons t ts ih =>
    have ht : t.1 ≠ "" := h t (by simp)
    simp only [constSum, idxMinSum, List.foldr_cons, if_neg ht] at *
    rw [ih (fun s hs => h s (by simp [hs]))]

/-- The polynomial map's constant entry (the `""` key; 0 when absent). -/
def constEntry (l : List (String × Rat)) : Rat :=
  ((l.find? (fun t => t.1 = "")).map (·.2)).getD 0

lemma Poly.constant_eq (p : Poly) : p.constant = constEntry p.map := rfl

lemma constSum_cons (bounds : List (String × Bound)) (t : String × Rat)
    (ts : List (String × Rat)) :
    constSum bounds (t :: ts) =
      (if t.1 = "" then t.2.num else t.2.num * boundMin bounds t.1) +
        constSum bounds ts := rfl

lemma idxMinSum_cons (bounds : List (String × Bound)) (t : String × Rat)
    (ts : List (String × Rat)) :
    idxMinSum bounds (t :: ts) =
      (if t.1 = "" then 0 else t.2.num * boundMin bounds t.1) +
        idxMinSum bounds ts := rfl

lemma retainedTerms_cons_const (bounds : List (String × Bound))
    (t : String × Rat) (ts : List (String × Rat)) (ht : t.1 = "") :
    retainedTerms bounds (t :: ts) = retainedTerms bounds ts := by
  simp [retainedTerms, ht]

lemma retainedTerms_cons_keep (bounds : List (String × Bound))
    (t : String × Rat) (ts : List (String × Rat)) (ht : t.1 ≠ "")
    (hbm : boundMin bounds t.1 ≠ boundMax bounds t.1) :
    retainedTerms bounds (t :: ts) = (t.1, t.2.num) :: retainedTerms bounds ts := by
  simp [retainedTerms, ht, hbm]

lemma retainedTerms_cons_drop (bounds : List (String × Bound))
    (t : String × Rat) (ts : List (String × Rat)) (ht : t.1 ≠ "")
    (hbm : boundMin bounds t.1 = boundMax bounds t.1) :
    retainedTerms bounds (t :: ts) = retainedTerms bounds ts := by
  simp [retainedTerms, ht, hbm]

/-- Splits the accumulated constant into the polynomial's own constant entry
plus the indexed bound-shift sum, under key uniqueness. -/
lemma constSum_split (bounds : List (String × Bound)) (l : List (String × Rat))
    (hnodup : (l.map (·.1)).Nodup) :
    constSum bounds l = (constEntry l).num + idxMinSum bounds l := by
  induction l with
  | nil => simp [constSum, idxMinSum, constEntry]
  | cons t ts ih =>
    simp only [List.map_cons, List.nodup_cons] at hnodup
    by_cases ht : t.1 = ""
    · have hrest : ∀ s ∈ ts, s.1 ≠ "" := by
        intro s hs hs0
        have hmem : s.1 ∈ ts.map (·.1) := List.mem_map_of_mem _ hs
        rw [hs0, ← ht] at hmem
        exact hnodup.1 hmem
      have hfind : List.find? (fun u => u.1 = "") (t :: ts) = some t :=
        List.find?_cons_of_pos _ (by simp [ht])
      rw [constSum_cons, idxMinSum_cons, if_pos ht, if_pos ht,
        constSum_of_no_const bounds ts hrest]
      simp only [constEntry, hfind, Option.map_some', Option.getD_some]
      omega
    · have hfind : List.find? (fun u => u.1 = "") (t :: ts) =
          List.find? (fun u => u.1 = "") ts :=
        List.find?_cons_of_neg _ (by simp [ht])
      rw [constSum_cons, idxMinSum_cons, if_neg ht, if_neg ht, ih hnodup.2]
      simp only [constEntry, hfind]
      omega

/-- The central induction for `Integerize` (gen_stripe.cc:453-471): over a
canonical map whose indexed names are covered by the bounds, the loop
accumulates the shifted constant and appends the retained coefficients. -/
lemma integerizeGo_ok (bounds : List (String × Bound)) (l : List (String × Rat))
    (acc : Affine)
    (hden : ∀ t ∈ l, t.2.den = 1)
    (hcov : ∀ t ∈ l, t.1 ≠ "" → (lookupBound bounds t.1).isSome = true)
    (hnz : ∀ t ∈ l, t.2 ≠ 0)
    (hnodup : (l.map (·.1)).Nodup)
    (hfresh : ∀ t ∈ l, t.1 ≠ "" → ∀ s ∈ acc.terms, s.1 ≠ t.1) :
    IntegerizeGo bounds l acc =
      .ok ⟨acc.const + constSum bounds l, acc.terms ++ retainedTerms bounds l⟩ := by
  induction l generalizing acc with
  | nil => simp [IntegerizeGo, constSum, retainedTerms]
  | cons t ts ih =>
    have hd : t.2.den = 1 := hden t (by simp)
    have hdents : ∀ s ∈ ts, s.2.den = 1 := fun s hs => hden s (by simp [hs])
    have hcovts : ∀ s ∈ ts, s.1 ≠ "" → (lookupBound bounds s.1).isSome = true :=
      fun s hs => hcov s (by simp [hs])
    have hnzts : ∀ s ∈ ts, s.2 ≠ 0 := fun s hs => hnz s (by simp [hs])
    have hnd' := hnodup
    simp only [List.map_cons, List.nodup_cons] at hnd'
    simp only [IntegerizeGo, if_neg (show ¬(t.2.den ≠ 1) by simp [hd])]
    by_cases ht : t.1 = ""
    · rw [if_pos ht, ih (acc.addConst t.2.num) hdents hcovts hnzts hnd'.2
        (fun s hs hs1 u hu => hfresh s (by simp [hs]) hs1 u hu)]
      rw [constSum_cons, if_pos ht, retainedTerms_cons_const bounds t ts ht]
      simp only [Affine.addConst, Except.ok.injEq, Affine.mk.injEq]
      refine ⟨by omega, ?_⟩
      trivial
    · rw [if_neg ht]
      obtain ⟨b, hb⟩ := Option.isSome_iff_exists.mp (hcov t (by simp) ht)
      have hmin : boundMin bounds t.1 = b.min := by simp [boundMin, hb]
      have hmax : boundMax bounds t.1 = b.max := by simp [boundMax, hb]
      simp only [hb]
      by_cases hbm : b.min = b.max
      · rw [if_neg (by simp [hbm])]
        rw [ih (acc.addConst (t.2.num * b.min)) hdents hcovts hnzts hnd'.2
          (fun s hs hs1 u hu => hfresh s (by simp [hs]) hs1 u hu)]
        rw [constSum_cons, if_neg ht,
          retainedTerms_cons_drop bounds t ts ht (by rw [hmin, hmax, hbm])]
        simp only [Affine.addConst, Except.ok.injEq, Affine.mk.injEq, hmin]
        refine ⟨by omega, ?_⟩
        trivial
      · rw [if_pos hbm]
        have haux : addTermAux acc.terms t.1 t.2.num = acc.terms ++ [(t.1, t.2.num)] :=
          addTermAux_fresh acc.terms t.1 t.2.num
            (fun s hs => hfresh t (by simp) ht s hs)
            (Rat.num_ne_zero.mpr (hnz t (by simp)))
        have hstep : (acc.addConst (t.2.num * b.min)).addTerm t.1 t.2.num =
            ⟨acc.const + t.2.num * b.min, acc.terms ++ [(t.1, t.2.num)]⟩ := by
          simp [Affine.addConst, Affine.addTerm, haux]
        have hfr : ∀ s ∈ ts, s.1 ≠ "" →
            ∀ u ∈ (⟨acc.const + t.2.num * b.min,
              acc.terms ++ [(t.1, t.2.num)]⟩ : Affine).terms, u.1 ≠ s.1 := by
          intro s hs hs1 u hu
          rcases List.mem_append.mp hu with hu | hu
          · exact hfresh s (by simp [hs]) hs1 u hu
          · simp only [List.mem_singleton] at hu
            subst hu
            intro hceq
            apply hnd'.1
            rw [hceq]
            exact List.mem_map_of_mem _ hs
        rw [hstep, ih ⟨acc.const + t.2.num * b.min,
          acc.terms ++ [(t.1, t.2.num)]⟩ hdents hcovts hnzts hnd'.2 hfr]
        rw [constSum_cons, if_neg ht,
          retainedTerms_cons_keep bounds t ts ht (by rw [hmin, hmax]; exact hbm)]
        simp only [Except.ok.injEq, Affine.mk.injEq, hmin]
        exact ⟨by omega, by simp⟩

/-- If some map entry has a non-unit denominator (and the bounds cover the
indexed entries), the `Integerize` loop raises `NonIntegerTerm` from any
accumulator. -/
lemma integerizeGo_err (bounds : List (String × Bound)) (l : List (String × Rat))
    (hcov : ∀ t ∈ l, t.1 ≠ "" → (lookupBound bounds t.1).isSome = true)
    (hbad : ∃ t ∈ l, t.2.den ≠ 1) :
    ∀ acc, IntegerizeGo bounds l acc = .error .nonIntegerTerm := by
  induction l with
  | nil => simp at hbad
  | cons t ts ih =>
    intro acc
    by_cases hd : t.2.den = 1
    · have hbad' : ∃ s ∈ ts, s.2.den ≠ 1 := by
        rcases hbad with ⟨s, hs, hsd⟩
        rcases List.mem_cons.mp hs with hst | hst
        · exact absurd hd (hst ▸ hsd)
        · exact ⟨s, hst, hsd⟩
      have ihts := ih (fun s hs => hcov s (by simp [hs])) hbad'
      simp only [IntegerizeGo, if_neg (show ¬(t.2.den ≠ 1) by simp [hd])]
      by_cases ht : t.1 = ""
      · rw [if_pos ht]
        exact ihts _
      · rw [if_neg ht]
        obtain ⟨b, hb⟩ := Option.isSome_iff_exists.mp (hcov t (by simp) ht)
        simp only [hb]
        exact ihts _
    · simp [IntegerizeGo, hd]

/-- C5: for a canonical polynomial map (distinct keys, nonzero coefficients)
whose indexed names all have solved bounds, `Integerize` fails with
`NonIntegerTerm` exactly when some coefficient's rational denominator is not
1, and otherwise returns the affine expression whose constant equals the
polynomial's constant term plus the sum of `c * bounds[i].min` over all
indexed terms, and which carries coefficient `c` on index `i` exactly for
the indexed terms whose bound is non-degenerate (`min ≠ max`). -/
theorem integerize_spec (poly : Poly) (bounds : List (String × Bound))
    (hcov : ∀ t ∈ poly.map, t.1 ≠ "" → (lookupBound bounds t.1).isSome = true)
    (hnz : ∀ t ∈ poly.map, t.2 ≠ 0)
    (hnodup : (poly.map.map (·.1)).Nodup) :
    (Integerize poly bounds = .error .nonIntegerTerm ↔
      ∃ t ∈ poly.map, t.2.den ≠ 1) ∧
    ((∀ t ∈ poly.map, t.2.den = 1) →
      Integerize poly bounds =
        .ok ⟨poly.constant.num + idxMinSum bounds poly.map,
          retainedTerms bounds poly.map⟩) := by
  constructor
  · constructor
    · intro herr
      by_contra hno
      push_neg at hno
      have hok := integerizeGo_ok bounds poly.map Affine.zero hno hcov hnz hnodup
        (fun t _ _ s hs => absurd hs (by simp [Affine.zero]))
      rw [Integerize, hok] at herr
      exact Except.noConfusion herr
    · intro hbad
      exact integerizeGo_err bounds poly.map hcov hbad Affine.zero
  · intro hden
    have hok := integerizeGo_ok bounds poly.map Affine.zero hden hcov hnz hnodup
      (fun t _ _ s hs => absurd hs (by simp [Affine.zero]))
    rw [Integerize, hok, constSum_split bounds poly.map hnodup]
    simp [Affine.zero, Poly.constant_eq]

/-- Concrete fixture for C5: `3 + 2·i + 1·j` with `i ∈ [2,5]`, `j ∈ [4,4]`. -/
def c5poly : Poly := ⟨[("", 3), ("i", 2), ("j", 1)]⟩

/-- Bounds for the C5 fixture. -/
def c5bounds : List (String × Bound) := [("i", ⟨2, 5⟩), ("j", ⟨4, 4⟩)]

/-- C5 witness: on the fixture, `Integerize` returns constant
`3 + 2·2 + 1·4 = 11` and retains only the non-degenerate index `i` with
coefficient 2. -/
theorem integerize_spec_witness :
    Integerize c5poly c5bounds = .ok ⟨11, [("i", 2)]⟩ :=
  ((integerize_spec c5poly c5bounds (by decide) (by decide) (by decide)).2
    (by decide)).trans (by decide)

/-- C2 (amended): for a block whose per-dimension output checks all pass
(collecting output index set `out_idxs`), `NeedsInitialize` returns true iff
some constraint references only index variables inside `out_idxs` (no
non-output index occurs in it); a constraint mentioning any non-output index
does not by itself trigger; with no trigger the result is false. -/
theorem needs_initialize_constraint_spec (block : Block) (out_shape : TensorShape)
    (ref : Refinement) (out_idxs : List String)
    (href : block.refs.head? = some ref)
    (hdim : dimLoop block.idxs ref.access out_shape.dims [] = some (.ok out_idxs)) :
    NeedsInitialize block out_shape =
      some (block.constraints.any (fun con => !(anyInputs out_idxs con))) ∧
    (NeedsInitialize block out_shape = some true ↔
      ∃ con ∈ block.constraints, ∀ kvp ∈ con.getMap, kvp.1 ≠ "" → kvp.1 ∈ out_idxs) := by
  have h1 : NeedsInitialize block out_shape =
      some (block.constraints.any (fun con => !(anyInputs out_idxs con))) := by
    simp only [NeedsInitialize, href, hdim]
  have hAI : ∀ con : Affine, anyInputs out_idxs con = false ↔
      ∀ kvp ∈ con.getMap, kvp.1 ≠ "" → kvp.1 ∈ out_idxs := by
    intro con
    simp [anyInputs]
  refine ⟨h1, ?_⟩
  rw [h1]
  simp only [Option.some.injEq, List.any_eq_true, Bool.not_eq_true']
  constructor
  · rintro ⟨con, hcon, hfalse⟩
    exact ⟨con, hcon, (hAI con).mp hfalse⟩
  · rintro ⟨con, hcon, hall⟩
    exact ⟨con, hcon, (hAI con).mpr hall⟩

/-- Output refinement of the C2 fixtures: access `(i)` onto a size-2 dim. -/
def c2ref : Refinement :=
  ⟨.Out, "O", "O", [⟨0, [("i", 1)]⟩], ⟨"f32", [⟨1, 2⟩], 8⟩, "add", false, 0⟩

/-- C2 fixture block: one loop index `i` (range 2) used by the output, and a
single constraint `j ≥ 0` touching only the non-output index `j`. -/
def c2block : Block :=
  { name := "k", comments := "", tags := ["kernel", "contraction"],
    idxs := [⟨"i", 2⟩, ⟨"j", 3⟩], refs := [c2ref],
    constraints := [⟨0, [("j", 1)]⟩], stmts := [] }

/-- The C2 fixture's output shape: one dimension of size 2. -/
def c2shape : TensorShape := ⟨"f32", [⟨1, 2⟩], 8⟩

/-- C2 counterexample: the per-dimension checks pass with output index set
`{i}`, the block's only constraint references only the index `j`, which lies
outside that set — the claim then demands `needs_initialize = true` — yet
the code returns false (such a constraint has `any_inputs` and is not
"output only"). -/
theorem needs_initialize_claim_counterexample :
    c2block.refs.head? = some c2ref ∧
    dimLoop c2block.idxs c2ref.access c2shape.dims [] = some (.ok ["i"]) ∧
    (∃ con ∈ c2block.constraints,
      ∀ kvp ∈ con.getMap, kvp.1 ≠ "" → kvp.1 ∉ (["i"] : List String)) ∧
    NeedsInitialize c2block c2shape = some false := by
  decide

/-- C2 fixture variant: the single constraint `i ≥ 0` touches only the
output index `i`. -/
def c2blockB : Block :=
  { name := "k", comments := "", tags := ["kernel", "contraction"],
    idxs := [⟨"i", 2⟩, ⟨"j", 3⟩], refs := [c2ref],
    constraints := [⟨0, [("i", 1)]⟩], stmts := [] }

/-- C2 witness: on the output-only-constraint fixture the amended theorem
yields `needs_initialize = true`. -/
theorem needs_initialize_constraint_spec_witness :
    NeedsInitialize c2blockB c2shape = some true :=
  ((needs_initialize_constraint_spec c2blockB c2shape c2ref ["i"]
    (by decide) (by decide)).2).mpr
    ⟨⟨0, [("i", 1)]⟩, by decide, by decide⟩

/-- A canonical map's length splits into its indexed entries plus one for
the constant entry when present. -/
lemma length_split_const (l : List (String × Rat))
    (hnodup : (l.map (·.1)).Nodup) :
    l.length = (l.filter (fun t => t.1 ≠ "")).length +
      (if (l.find? (fun t => t.1 = "")).isSome then 1 else 0) := by
  induction l with
  | nil => simp
  | cons t ts ih =>
    simp only [List.map_cons, List.nodup_cons] at hnodup
    by_cases ht : t.1 = ""
    · have hrest : ∀ s ∈ ts, s.1 ≠ "" := by
        intro s hs hs0
        have hmem : s.1 ∈ ts.map (·.1) := List.mem_map_of_mem _ hs
        rw [hs0, ← ht] at hmem
        exact hnodup.1 hmem
      have hfilter : ts.filter (fun t => !decide (t.1 = "")) = ts :=
        List.filter_eq_self.mpr (fun s hs => by simp [hrest s hs])
      rw [List.find?_cons_of_pos _ (by simp [ht])]
      simp [List.filter_cons, ht, hfilter]
    · rw [List.find?_cons_of_neg _ (by simp [ht])]
      simp only [List.filter_cons, List.length_cons, if_pos (by simpa using ht),
        decide_eq_true_eq]
      rw [ih hnodup.2]
      split <;> omega

/-- The per-dimension fancy test of gen_stripe.cc:517, over a canonical map,
holds exactly when the polynomial has at least two indexed terms. -/
lemma poly_fancy_iff (p : Poly) (hnodup : (p.map.map (·.1)).Nodup)
    (hnz : ∀ t ∈ p.map, t.2 ≠ 0) :
    (2 < p.map.length ∨ (p.map.length = 2 ∧ p.constant = 0)) ↔
      2 ≤ p.idxTerms.length := by
  cases hfind : p.map.find? (fun t => t.1 = "") with
  | none =>
    have hall : ∀ t ∈ p.map, t.1 ≠ "" := by
      intro t ht
      simpa using List.find?_eq_none.mp hfind t ht
    have hfilter : p.idxTerms = p.map := by
      simp only [Poly.idxTerms]
      exact List.filter_eq_self.mpr (fun s hs => by simpa using hall s hs)
    have hc : p.constant = 0 := by simp [Poly.constant, hfind]
    rw [hfilter, hc]
    constructor
    · rintro (h | ⟨h, _⟩) <;> omega
    · intro h
      by_cases h2 : p.map.length = 2
      · exact Or.inr ⟨h2, rfl⟩
      · exact Or.inl (by omega)
  | some t0 =>
    have ht0m : t0 ∈ p.map := List.mem_of_find?_eq_some hfind
    have hc : p.constant = t0.2 := by simp [Poly.constant, hfind]
    have hcnz : p.constant ≠ 0 := hc ▸ hnz t0 ht0m
    have hlen := length_split_const p.map hnodup
    rw [hfind] at hlen
    simp only [Option.isSome_some, if_pos] at hlen
    have hidx : p.idxTerms.length = (p.map.filter (fun t => t.1 ≠ "")).length := rfl
    constructor
    · rintro (h | ⟨_, hc0⟩)
      · omega
      · exact absurd hc0 hcnz
    · intro h
      exact Or.inl (by omega)

/-- C3 (amended): a contraction is classified "fancy" iff some dimension of
the output spec has a polynomial with at least two indexed terms.  (The
code's `getMap().size()` counts the constant entry when it is nonzero, so
two index terms trigger the test regardless of the constant offset.) -/
theorem is_fancy_spec (out_spec : List Poly)
    (hwf : ∀ p ∈ out_spec, (p.map.map (·.1)).Nodup ∧ ∀ t ∈ p.map, t.2 ≠ 0) :
    IsFancy out_spec = true ↔ ∃ p ∈ out_spec, 2 ≤ p.idxTerms.length := by
  simp only [IsFancy, List.any_eq_true, Bool.or_eq_true, Bool.and_eq_true,
    decide_eq_true_eq]
  constructor
  · rintro ⟨p, hp, hcond⟩
    exact ⟨p, hp, (poly_fancy_iff p (hwf p hp).1 (hwf p hp).2).mp hcond⟩
  · rintro ⟨p, hp, hcond⟩
    exact ⟨p, hp, (poly_fancy_iff p (hwf p hp).1 (hwf p hp).2).mpr hcond⟩

/-- C3 fixture: the output polynomial `x + y + 5` — two index terms, nonzero
constant offset. -/
def c3poly : Poly := ⟨[("", 5), ("x", 1), ("y", 1)]⟩

/-- C3 counterexample: on `x + y + 5` the code classifies the contraction
fancy (its map has three entries, counting the nonzero constant), while the
claim's condition — more than two index terms, or exactly two with zero
constant offset — is false. -/
theorem is_fancy_claim_counterexample :
    IsFancy [c3poly] = true ∧
    ¬(∃ p ∈ [c3poly],
      2 < p.idxTerms.length ∨ (p.idxTerms.length = 2 ∧ p.constant = 0)) := by
  decide

/-- C3 witness: the amended criterion applied to the fixture (two indexed
terms) yields the fancy classification. -/
theorem is_fancy_spec_witness : IsFancy [c3poly] = true :=
  (is_fancy_spec [c3poly] (by decide)).mpr ⟨c3poly, by decide, by decide⟩

/-- A trivial instantiation of the external collaborators, used by the
concrete fixtures. -/
def trivExt : Externals :=
  { opToString := fun _ => ""
    constrainIndexVarsToInts := id
    gatherConstraints := fun _ _ => []
    reduceOutputPolynomials := fun c _ => c
    mergeParallelConstraints := id
    defract := fun c _ => c
    computeBounds := fun _ => .ok ([], []) }

/-- An empty `main` block as first created (gen_stripe.cc:33-36). -/
def emptyMain : MainBlock :=
  { name := "main", comments := "", tags := ["main"], idxs := [], refs := [],
    constraints := [], stmts := [] }

/-- Inversion of a successful `BuildContractionKernel` run into its
constituent computations. -/
lemma buildContractionKernel_inv (ext : Externals) (vars : Bindings)
    (ci : List String) (main : MainBlock) (op : Op) (cion : Contraction)
    (bounds : List (String × Bound)) (scons : List SimpleConstraint)
    (shape0 : TensorShape) (kernel : Block) (needs : Bool)
    (h : BuildContractionKernel ext vars ci main op cion bounds scons shape0 =
      .ok (kernel, needs)) :
    ∃ refs stmts scalar_inputs cons,
      buildSpecs vars ci bounds (GetAggOp cion.agg_op) cion.specs =
        .ok (refs, stmts, scalar_inputs) ∧
      buildConstraints bounds scons = .ok cons ∧
      NeedsInitialize (contractionKernelBase ext main op cion refs stmts cons bounds)
        shape0 = some needs ∧
      kernel = contractionKernelFinal
        (contractionKernelBase ext main op cion refs stmts cons bounds)
        cion.comb_op scalar_inputs op.output := by
  unfold BuildContractionKernel at h
  cases hbs : buildSpecs vars ci bounds (GetAggOp cion.agg_op) cion.specs with
  | error e =>
    rw [hbs] at h
    exact absurd h (by simp [bind, Except.bind])
  | ok triple =>
    obtain ⟨refs, stmts, scalar_inputs⟩ := triple
    rw [hbs] at h
    cases hbc : buildConstraints bounds scons with
    | error e =>
      rw [hbc] at h
      exact absurd h (by simp [bind, Except.bind])
    | ok cons =>
      rw [hbc] at h
      simp only [bind, Except.bind] at h
      cases hni : NeedsInitialize
          (contractionKernelBase ext main op cion refs stmts cons bounds) shape0 with
      | none =>
        rw [hni] at h
        exact absurd h (by simp)
      | some b =>
        rw [hni] at h
        simp only [Except.ok.injEq, Prod.mk.injEq] at h
        refine ⟨refs, stmts, scalar_inputs, cons, rfl, rfl, ?_, ?_⟩
        · rw [hni, h.2]
        · rw [← h.1]

/-- C8: a contraction whose output's declared byte size is zero is skipped
entirely — `main` is returned unchanged (statement and refinement lists), so
no kernel block is created; the program block is never touched by this
function at all. -/
theorem contraction_zero_size_skip (ext : Externals) (vars : Bindings)
    (ci : List String) (main : MainBlock) (op : Op) (sh : TensorShape)
    (hsh : GetShape vars op.output = .ok sh) (h0 : sh.byteSize = 0) :
    ProcessContraction ext vars ci main op = .ok main := by
  unfold ProcessContraction
  rw [hsh]
  simp [bind, Except.bind, h0, pure, Except.pure]

/-- C8 fixture: output shape of declared byte size 0. -/
def c8shape : TensorShape := ⟨"f32", [⟨1, 0⟩], 0⟩

/-- C8 fixture bindings. -/
def c8vars : Bindings :=
  [("O", .tensor c8shape), ("A", .tensor ⟨"f32", [⟨1, 4⟩], 16⟩)]

/-- C8 fixture contraction op `O[i] += A[i]` with zero-sized output. -/
def c8op : Op :=
  { tag := .contraction, f := ⟨"", [], false⟩,
    c := ⟨[⟨"O", [⟨[("i", 1)]⟩]⟩, ⟨"A", [⟨[("i", 1)]⟩]⟩], .sum, .multiply, "", false⟩,
    inputs := ["A"], output := "O", attributes := [] }

/-- C8 witness: the zero-byte-size fixture is skipped, leaving main as-is. -/
theorem contraction_zero_size_skip_witness :
    ProcessContraction trivExt c8vars [] emptyMain c8op = .ok emptyMain :=
  contraction_zero_size_skip trivExt c8vars [] emptyMain c8op c8shape
    (by decide) (by decide)

/-- Inversion of the first (output) iteration of the operand-spec loop. -/
lemma buildSpecs_cons_inv (vars : Bindings) (ci : List String)
    (bounds : List (String × Bound)) (aggStr : String) (spec0 : TensorSpec)
    (rest : List TensorSpec) (refs : List Refinement) (stmts : List Stmt)
    (sc : List String)
    (h : buildSpecs vars ci bounds aggStr (spec0 :: rest) = .ok (refs, stmts, sc)) :
    ∃ shape access rs,
      refs = (⟨.Out, spec0.id, spec0.id, access, shape, aggStr, false, 0⟩ :
        Refinement) :: rs ∧
      buildInputSpecs vars ci bounds rest = .ok (rs, stmts, sc) := by
  simp only [buildSpecs] at h
  cases hS : ScalarShape vars spec0.id with
  | error e =>
    rw [hS] at h
    exact absurd h (by simp [bind, Except.bind])
  | ok shape =>
    rw [hS] at h
    cases hA : spec0.spec.mapM (fun p => Integerize p bounds) with
    | error e =>
      rw [hA] at h
      exact absurd h (by simp [bind, Except.bind])
    | ok access =>
      rw [hA] at h
      cases hI : buildInputSpecs vars ci bounds rest with
      | error e =>
        rw [hI] at h
        exact absurd h (by simp [bind, Except.bind])
      | ok triple =>
        obtain ⟨rs, ss, scs⟩ := triple
        rw [hI] at h
        simp only [bind, Except.bind, Except.ok.injEq, Prod.mk.injEq] at h
        obtain ⟨h1, h2, h3⟩ := h
        subst h2
        subst h3
        exact ⟨shape, access, rs, h1.symm, rfl⟩

/-- Whether a scalar statement is an `Intrinsic`. -/
def Stmt.isIntrinsic : Stmt → Bool
  | .intrinsic _ _ _ => true
  | _ => false

/-- Every refinement the input-spec loop produces has direction In, and none
of its statements is an intrinsic (they are loads and constants only). -/
lemma buildInputSpecs_shape (vars : Bindings) (ci : List String)
    (bounds : List (String × Bound)) :
    ∀ (specs : List TensorSpec) (rs : List Refinement) (ss : List Stmt)
      (sc : List String),
      buildInputSpecs vars ci bounds specs = .ok (rs, ss, sc) →
      (∀ r ∈ rs, r.dir = .In) ∧ (∀ s ∈ ss, s.isIntrinsic = false) := by
  intro specs
  induction specs with
  | nil =>
    intro rs ss sc h
    simp only [buildInputSpecs, Except.ok.injEq, Prod.mk.injEq] at h
    rw [← h.1, ← h.2.1]
    simp
  | cons spec rest ih =>
    intro rs ss sc h
    unfold buildInputSpecs at h
    cases hS : ScalarShape vars spec.id with
    | error e =>
      rw [hS] at h
      exact absurd h (by simp [bind, Except.bind])
    | ok shape =>
      rw [hS] at h
      cases hA : spec.spec.mapM (fun p => Integerize p bounds) with
      | error e =>
        rw [hA] at h
        exact absurd h (by simp [bind, Except.bind])
      | ok access =>
        rw [hA] at h
        simp only [bind, Except.bind] at h
        cases hRec : buildInputSpecs vars ci bounds rest with
        | error e =>
          rw [hRec] at h
          cases hV : lookupVar vars spec.id with
          | none => rw [hV] at h; exact absurd h (by simp)
          | some b =>
            rw [hV] at h
            cases b <;> exact absurd h (by simp)
        | ok triple =>
          obtain ⟨rs1, ss1, sc1⟩ := triple
          rw [hRec] at h
          have ihr := ih rs1 ss1 sc1 hRec
          cases hV : lookupVar vars spec.id with
          | none =>
            rw [hV] at h
            simp only [Except.ok.injEq, Prod.mk.injEq] at h
            rw [← h.1, ← h.2.1]
            constructor
            · intro r hr
              rcases List.mem_cons.mp hr with hr | hr
              · rw [hr]
              · exact ihr.1 r hr
            · intro s hs
              rcases List.mem_cons.mp hs with hs | hs
              · rw [hs]; rfl
              · exact ihr.2 s hs
          | some b =>
            rw [hV] at h
            cases b with
            | tensor bsh =>
              simp only [Except.ok.injEq, Prod.mk.injEq] at h
              rw [← h.1, ← h.2.1]
              constructor
              · intro r hr
                rcases List.mem_cons.mp hr with hr | hr
                · rw [hr]
                · exact ihr.1 r hr
              · intro s hs
                rcases List.mem_cons.mp hs with hs | hs
                · rw [hs]; rfl
                · exact ihr.2 s hs
            | iconst v =>
              simp only [Except.ok.injEq, Prod.mk.injEq] at h
              rw [← h.1, ← h.2.1]
              refine ⟨ihr.1, ?_⟩
              intro s hs
              rcases List.mem_cons.mp hs with hs | hs
              · rw [hs]; rfl
              · exact ihr.2 s hs
            | fconst v =>
              simp only [Except.ok.injEq, Prod.mk.injEq] at h
              rw [← h.1, ← h.2.1]
              refine ⟨ihr.1, ?_⟩
              intro s hs
              rcases List.mem_cons.mp hs with hs | hs
              · rw [hs]; rfl
              · exact ihr.2 s hs
            | tuple =>
              simp only [Except.ok.injEq, Prod.mk.injEq] at h
              rw [← h.1, ← h.2.1]
              constructor
              · intro r hr
                rcases List.mem_cons.mp hr with hr | hr
                · rw [hr]
                · exact ihr.1 r hr
              · intro s hs
                rcases List.mem_cons.mp hs with hs | hs
                · rw [hs]; rfl
                · exact ihr.2 s hs

/-- C10: every successfully built contraction kernel has a non-empty
refinement list whose first element is the Out refinement for the
contraction's output spec, carrying the aggregation op, and every other
refinement is an In refinement for an input spec. -/
theorem contraction_kernel_refs_spec (ext : Externals) (vars : Bindings)
    (ci : List String) (main : MainBlock) (op : Op) (cion : Contraction)
    (bounds : List (String × Bound)) (scons : List SimpleConstraint)
    (shape0 : TensorShape) (kernel : Block) (needs : Bool)
    (spec0 : TensorSpec) (rest : List TensorSpec)
    (hspecs : cion.specs = spec0 :: rest)
    (h : BuildContractionKernel ext vars ci main op cion bounds scons shape0 =
      .ok (kernel, needs)) :
    ∃ access shape inRefs,
      kernel.refs = (⟨.Out, spec0.id, spec0.id, access, shape,
        GetAggOp cion.agg_op, false, 0⟩ : Refinement) :: inRefs ∧
      ∀ r ∈ inRefs, r.dir = .In := by
  obtain ⟨refs, stmts, sc, cons, hbs, hbc, hni, hk⟩ :=
    buildContractionKernel_inv ext vars ci main op cion bounds scons shape0
      kernel needs h
  rw [hspecs] at hbs
  obtain ⟨shape, access, rs, hrefs, hrest⟩ :=
    buildSpecs_cons_inv vars ci bounds (GetAggOp cion.agg_op) spec0 rest
      refs stmts sc hbs
  refine ⟨access, shape, rs, ?_,
    (buildInputSpecs_shape vars ci bounds rest rs stmts sc hrest).1⟩
  rw [hk]
  simp only [contractionKernelFinal, contractionKernelBase]
  exact hrefs

/-- A rank-1 tensor shape of extent 4, shared by the contraction fixtures. -/
def sh4 : TensorShape := ⟨"f32", [⟨1, 4⟩], 16⟩

/-- Bindings for the C10 fixture. -/
def c10vars : Bindings := [("O", .tensor sh4), ("A", .tensor sh4)]

/-- The C10 fixture contraction `O[i] += A[i]`. -/
def c10cion : Contraction :=
  ⟨[⟨"O", [⟨[("i", 1)]⟩]⟩, ⟨"A", [⟨[("i", 1)]⟩]⟩], .sum, .multiply, "", false⟩

/-- The C10 fixture operation. -/
def c10op : Op :=
  { tag := .contraction, f := ⟨"", [], false⟩, c := c10cion,
    inputs := ["A"], output := "O", attributes := [] }

/-- Solved bounds for the C10 fixture: `i ∈ [0,3]`. -/
def c10bounds : List (String × Bound) := [("i", ⟨0, 3⟩)]

/-- The scalar view (`ScalarShape`) of `sh4`. -/
def scalarSh4 : TensorShape := ⟨"f32", [⟨1, 1⟩], 0⟩

/-- The kernel the C10 fixture produces. -/
def c10kernel : Block :=
  { name := "kernel_0", comments := "",
    tags := ["kernel", "contraction", "agg_op_add"],
    idxs := [⟨"i", 4⟩],
    refs := [⟨.Out, "O", "O", [⟨0, [("i", 1)]⟩], scalarSh4, "add", false, 0⟩,
             ⟨.In, "A", "A", [⟨0, [("i", 1)]⟩], scalarSh4, "", false, 0⟩],
    constraints := [],
    stmts := [.load "A" "$A", .intrinsic "assign" ["$A"] ["$O"], .store "$O" "O"] }

/-- C10 witness: on the fixture kernel the refinement list opens with the
output's Out refinement (agg op "add") and the In refinement follows it. -/
theorem contraction_kernel_refs_spec_witness :
    ∃ access shape inRefs,
      c10kernel.refs = (⟨.Out, "O", "O", access, shape,
        GetAggOp c10cion.agg_op, false, 0⟩ : Refinement) :: inRefs ∧
      ∀ r ∈ inRefs, r.dir = .In :=
  contraction_kernel_refs_spec trivExt c10vars [] emptyMain c10op c10cion
    c10bounds [] sh4 c10kernel false ⟨"O", [⟨[("i", 1)]⟩]⟩
    [⟨"A", [⟨[("i", 1)]⟩]⟩] (by decide) (by decide)

/-- Inversion of a successful `ProcessElementwise` run. -/
lemma processElementwise_inv (ext : Externals) (vars : Bindings)
    (ci : List String) (main : MainBlock) (op : Op) (m' : MainBlock)
    (h : ProcessElementwise ext vars ci main op = .ok m') :
    ∃ out_shape irefs istmts oshape,
      GetShape vars op.output = .ok out_shape ∧
      ewInputs vars ci (ewIdxs out_shape) out_shape.dims op.inputs =
        .ok (irefs, istmts) ∧
      ScalarShape vars op.output = .ok oshape ∧
      m' = { main with stmts := main.stmts ++
        [.sub (ewKernelBlock ext main op out_shape irefs istmts oshape)] } := by
  unfold ProcessElementwise at h
  cases hG : GetShape vars op.output with
  | error e =>
    rw [hG] at h
    exact absurd h (by simp [bind, Except.bind])
  | ok out_shape =>
    rw [hG] at h
    simp only [bind, Except.bind] at h
    cases hE : ewInputs vars ci (ewIdxs out_shape) out_shape.dims op.inputs with
    | error e =>
      rw [hE] at h
      exact absurd h (by simp [bind, Except.bind])
    | ok pr =>
      obtain ⟨irefs, istmts⟩ := pr
      rw [hE] at h
      cases hS : ScalarShape vars op.output with
      | error e =>
        rw [hS] at h
        exact absurd h (by simp [bind, Except.bind])
      | ok oshape =>
        rw [hS] at h
        simp only [bind, Except.bind, pure, Except.pure, Except.ok.injEq] at h
        exact ⟨out_shape, irefs, istmts, oshape, rfl, hE, rfl, h.symm⟩

/-- Every declared index of the contraction index loop comes from a bound
entry whose range is not 1. -/
lemma mem_buildIdxs (bounds : List (String × Bound)) (idx : Index)
    (h : idx ∈ buildIdxs bounds) :
    ∃ kvp ∈ bounds, idx = ⟨kvp.1, kvp.2.range⟩ ∧ kvp.2.range ≠ 1 := by
  simp only [buildIdxs, List.mem_filterMap] at h
  obtain ⟨kvp, hk, hcond⟩ := h
  by_cases hr : kvp.2.range = 1
  · rw [if_pos hr] at hcond
    exact absurd hcond (by simp)
  · rw [if_neg hr] at hcond
    simp only [Option.some.injEq] at hcond
    exact ⟨kvp, hk, hcond.symm, hr⟩

/-- C9: no finalized kernel declares a range-1 loop index.  Elementwise
lowering erases all range-1 indices after processing inputs; contraction
lowering declares an index only when its resolved range is not 1, and — for
sane solved bounds (min ≤ max, width below 2^64) — exactly when the range
`max − min + 1` exceeds 1. -/
theorem no_unit_range_indices :
    (∀ (ext : Externals) (vars : Bindings) (ci : List String) (main : MainBlock)
        (op : Op) (m' : MainBlock),
      ProcessElementwise ext vars ci main op = .ok m' →
      ∃ k : Block, m'.stmts = main.stmts ++ [.sub k] ∧
        ∀ idx ∈ k.idxs, idx.range ≠ 1) ∧
    (∀ (ext : Externals) (vars : Bindings) (ci : List String) (main : MainBlock)
        (op : Op) (cion : Contraction) (bounds : List (String × Bound))
        (scons : List SimpleConstraint) (shape0 : TensorShape) (kernel : Block)
        (needs : Bool),
      BuildContractionKernel ext vars ci main op cion bounds scons shape0 =
        .ok (kernel, needs) →
      (∀ idx ∈ kernel.idxs, idx.range ≠ 1) ∧
      ((∀ b ∈ bounds, b.2.min ≤ b.2.max ∧ b.2.max - b.2.min + 1 < 2 ^ 64) →
        ∀ idx ∈ kernel.idxs, 1 < idx.range)) := by
  constructor
  · intro ext vars ci main op m' h
    obtain ⟨out_shape, irefs, istmts, oshape, hG, hE, hS, hm⟩ :=
      processElementwise_inv ext vars ci main op m' h
    refine ⟨ewKernelBlock ext main op out_shape irefs istmts oshape,
      by rw [hm], ?_⟩
    intro idx hidx
    have hmem : idx ∈ (ewIdxs out_shape).filter (fun idx => idx.range ≠ 1) := hidx
    simp only [List.mem_filter, decide_eq_true_eq] at hmem
    exact hmem.2
  · intro ext vars ci main op cion bounds scons shape0 kernel needs h
    obtain ⟨refs, stmts, sc, cons, hbs, hbc, hni, hk⟩ :=
      buildContractionKernel_inv ext vars ci main op cion bounds scons shape0
        kernel needs h
    have hidxs : kernel.idxs = buildIdxs bounds := by
      rw [hk]
      rfl
    constructor
    · intro idx hidx
      rw [hidxs] at hidx
      obtain ⟨kvp, hkv, heq, hne⟩ := mem_buildIdxs bounds idx hidx
      rw [heq]
      exact hne
    · intro hsane idx hidx
      rw [hidxs] at hidx
      obtain ⟨kvp, hkv, heq, hne⟩ := mem_buildIdxs bounds idx hidx
      have hb := hsane kvp hkv
      rw [heq]
      show 1 < kvp.2.range
      unfold Bound.range at hne ⊢
      omega

/-- Input shape `(4, 1)` of the broadcast fixture. -/
def shape41 : TensorShape := ⟨"f32", [⟨1, 4⟩, ⟨1, 1⟩], 16⟩

/-- Input/output shape `(4, 8)` of the broadcast fixture. -/
def shape48 : TensorShape := ⟨"f32", [⟨8, 4⟩, ⟨1, 8⟩], 128⟩

/-- Bindings of the elementwise fixture: `A : (4,1)`, `B, C : (4,8)`. -/
def c6vars : Bindings :=
  [("A", .tensor shape41), ("B", .tensor shape48), ("C", .tensor shape48)]

/-- The elementwise fixture op `C = add(A, B)` (the contraction record is an
unused placeholder for a Function op). -/
def c6op : Op :=
  { tag := .function, f := ⟨"add", [], false⟩,
    c := ⟨[], .sum, .multiply, "", false⟩,
    inputs := ["A", "B"], output := "C", attributes := [] }

/-- Scalar view of `shape41`. -/
def scalarShape41 : TensorShape := ⟨"f32", [⟨1, 1⟩, ⟨1, 1⟩], 0⟩

/-- Scalar view of `shape48`. -/
def scalarShape48 : TensorShape := ⟨"f32", [⟨8, 1⟩, ⟨1, 1⟩], 0⟩

/-- The kernel the elementwise fixture produces: output access `(i1, i2)`,
first-input access `(i1, 0)`. -/
def c6kernel : Block :=
  { name := "kernel_0", comments := "",
    tags := ["kernel", "eltwise", "eltwise_add"],
    idxs := [⟨"i1", 4⟩, ⟨"i2", 8⟩],
    refs := [⟨.In, "A", "A", [⟨0, [("i1", 1)]⟩, ⟨0, []⟩], scalarShape41, "", false, 0⟩,
             ⟨.In, "B", "B", [⟨0, [("i1", 1)]⟩, ⟨0, [("i2", 1)]⟩], scalarShape48, "", false, 0⟩,
             ⟨.Out, "C", "C", [⟨0, [("i1", 1)]⟩, ⟨0, [("i2", 1)]⟩], scalarShape48, "", false, 0⟩],
    constraints := [],
    stmts := [.load "A" "$A", .load "B" "$B",
              .intrinsic "add" ["$A", "$B"] ["$C"], .store "$C" "C"] }

/-- The main block after lowering the elementwise fixture. -/
def c6mainAfter : MainBlock := { emptyMain with stmts := [.sub c6kernel] }

/-- C9 witness: the elementwise fixture's kernel and the contraction
fixture's kernel both declare no range-1 index. -/
theorem no_unit_range_indices_witness :
    (∃ k : Block, c6mainAfter.stmts = emptyMain.stmts ++ [.sub k] ∧
      ∀ idx ∈ k.idxs, idx.range ≠ 1) ∧
    (∀ idx ∈ c10kernel.idxs, idx.range ≠ 1) :=
  ⟨no_unit_range_indices.1 trivExt c6vars [] emptyMain c6op c6mainAfter
      (by decide),
   (no_unit_range_indices.2 trivExt c10vars [] emptyMain c10op c10cion
      c10bounds [] sh4 c10kernel false (by decide)).1⟩

/-- The statements produced by the operand-spec loop are loads and constants
only — never intrinsics. -/
lemma buildSpecs_stmts_no_intrinsic (vars : Bindings) (ci : List String)
    (bounds : List (String × Bound)) (aggStr : String) (specs : List TensorSpec)
    (refs : List Refinement) (stmts : List Stmt) (sc : List String)
    (h : buildSpecs vars ci bounds aggStr specs = .ok (refs, stmts, sc)) :
    ∀ s ∈ stmts, s.isIntrinsic = false := by
  cases specs with
  | nil =>
    simp only [buildSpecs, Except.ok.injEq, Prod.mk.injEq] at h
    rw [← h.2.1]
    simp
  | cons spec0 rest =>
    obtain ⟨shape, access, rs, hrefs, hrest⟩ :=
      buildSpecs_cons_inv vars ci bounds aggStr spec0 rest refs stmts sc h
    exact (buildInputSpecs_shape vars ci bounds rest rs stmts sc hrest).2

/-- C4 (amended): in contraction lowering, if more than one scalar input was
produced and the combination operator maps to a nonempty name
(mul/add/eq/cond), the kernel gets one intrinsic named after it and the tag
`comb_op_<op>`; if exactly one scalar input was produced, the kernel gets a
plain "assign" intrinsic; if more than one scalar input was produced but the
combination operator maps to the empty name, no intrinsic is added at all
(the kernel's statements are loads, constants and the final store only). -/
theorem combo_intrinsic_spec (ext : Externals) (vars : Bindings)
    (ci : List String) (main : MainBlock) (op : Op) (cion : Contraction)
    (bounds : List (String × Bound)) (scons : List SimpleConstraint)
    (shape0 : TensorShape) (kernel : Block) (needs : Bool)
    (h : BuildContractionKernel ext vars ci main op cion bounds scons shape0 =
      .ok (kernel, needs)) :
    ∃ pre scalar_inputs,
      (∀ s ∈ pre, s.isIntrinsic = false) ∧
      kernel.stmts = pre ++ (comboStmts cion.comb_op scalar_inputs op.output).1 ++
        [.store (ScalarName op.output) op.output] ∧
      (1 < scalar_inputs.length → GetComboOp cion.comb_op ≠ "" →
        (comboStmts cion.comb_op scalar_inputs op.output).1 =
          [.intrinsic (GetComboOp cion.comb_op) scalar_inputs
            [ScalarName op.output]] ∧
        ("comb_op_" ++ GetComboOp cion.comb_op) ∈ kernel.tags) ∧
      (scalar_inputs.length ≤ 1 →
        (comboStmts cion.comb_op scalar_inputs op.output).1 =
          [.intrinsic "assign" scalar_inputs [ScalarName op.output]]) ∧
      (1 < scalar_inputs.length → GetComboOp cion.comb_op = "" →
        ∀ s ∈ kernel.stmts, s.isIntrinsic = false) := by
  obtain ⟨refs, stmts, sc, cons, hbs, hbc, hni, hk⟩ :=
    buildContractionKernel_inv ext vars ci main op cion bounds scons shape0
      kernel needs h
  have hpre : ∀ s ∈ stmts, s.isIntrinsic = false :=
    buildSpecs_stmts_no_intrinsic vars ci bounds (GetAggOp cion.agg_op)
      cion.specs refs stmts sc hbs
  refine ⟨stmts, sc, hpre, ?_, ?_, ?_, ?_⟩
  · rw [hk]
    rfl
  · intro hlen hop
    have hcombo : comboStmts cion.comb_op sc op.output =
        ([.intrinsic (GetComboOp cion.comb_op) sc [ScalarName op.output]],
          ["comb_op_" ++ GetComboOp cion.comb_op]) := by
      unfold comboStmts
      rw [if_pos hlen, if_pos hop]
    refine ⟨by rw [hcombo], ?_⟩
    rw [hk]
    show _ ∈ (contractionKernelFinal _ _ _ _).tags
    simp [contractionKernelFinal, hcombo]
  · intro hlen
    unfold comboStmts
    rw [if_neg (by omega)]
  · intro hlen hop
    have hcombo1 : (comboStmts cion.comb_op sc op.output).1 = [] := by
      unfold comboStmts
      rw [if_pos hlen, if_neg (by simp [hop])]
    intro s hs
    rw [hk] at hs
    have hs2 : s ∈ stmts ++ (comboStmts cion.comb_op sc op.output).1 ++
        [Stmt.store (ScalarName op.output) op.output] := hs
    rw [hcombo1] at hs2
    simp only [List.append_nil, List.mem_append, List.mem_singleton] at hs2
    rcases hs2 with h1 | h1
    · exact hpre s h1
    · rw [h1]
      rfl

/-- Bindings for the C4 fixture. -/
def c4vars : Bindings :=
  [("O", .tensor sh4), ("A", .tensor sh4), ("B", .tensor sh4)]

/-- The C4 fixture contraction: two inputs, combination operator NONE (maps
to the empty intrinsic name). -/
def c4cion : Contraction :=
  ⟨[⟨"O", [⟨[("i", 1)]⟩]⟩, ⟨"A", [⟨[("i", 1)]⟩]⟩, ⟨"B", [⟨[("i", 1)]⟩]⟩],
    .sum, .none, "", false⟩

/-- The C4 fixture operation. -/
def c4op : Op :=
  { tag := .contraction, f := ⟨"", [], false⟩, c := c4cion,
    inputs := ["A", "B"], output := "O", attributes := [] }

/-- The kernel the C4 fixture produces: loads and store, no intrinsic. -/
def c4kernel : Block :=
  { name := "kernel_0", comments := "",
    tags := ["kernel", "contraction", "agg_op_add"],
    idxs := [⟨"i", 4⟩],
    refs := [⟨.Out, "O", "O", [⟨0, [("i", 1)]⟩], scalarSh4, "add", false, 0⟩,
             ⟨.In, "A", "A", [⟨0, [("i", 1)]⟩], scalarSh4, "", false, 0⟩,
             ⟨.In, "B", "B", [⟨0, [("i", 1)]⟩], scalarSh4, "", false, 0⟩],
    constraints := [],
    stmts := [.load "A" "$A", .load "B" "$B", .store "$O" "O"] }

/-- C4 counterexample: with two scalar inputs and combination operator NONE
(empty intrinsic name) the kernel's statements are two loads and a store —
no "assign" (or any) intrinsic is added, contrary to the claim. -/
theorem combo_intrinsic_claim_counterexample :
    BuildContractionKernel trivExt c4vars [] emptyMain c4op c4cion c10bounds
      [] sh4 = .ok (c4kernel, false) ∧
    GetComboOp c4cion.comb_op = "" ∧
    c4kernel.stmts = [.load "A" "$A", .load "B" "$B", .store "$O" "O"] ∧
    (∀ s ∈ c4kernel.stmts, s.isIntrinsic = false) := by
  decide

/-- C4 witness: the amended theorem applied to the single-input fixture
(one scalar input, hence a plain "assign" intrinsic). -/
theorem combo_intrinsic_spec_witness :
    ∃ pre scalar_inputs,
      (∀ s ∈ pre, s.isIntrinsic = false) ∧
      c10kernel.stmts = pre ++
        (comboStmts c10cion.comb_op scalar_inputs c10op.output).1 ++
        [.store (ScalarName c10op.output) c10op.output] ∧
      (1 < scalar_inputs.length → GetComboOp c10cion.comb_op ≠ "" →
        (comboStmts c10cion.comb_op scalar_inputs c10op.output).1 =
          [.intrinsic (GetComboOp c10cion.comb_op) scalar_inputs
            [ScalarName c10op.output]] ∧
        ("comb_op_" ++ GetComboOp c10cion.comb_op) ∈ c10kernel.tags) ∧
      (scalar_inputs.length ≤ 1 →
        (comboStmts c10cion.comb_op scalar_inputs c10op.output).1 =
          [.intrinsic "assign" scalar_inputs [ScalarName c10op.output]]) ∧
      (1 < scalar_inputs.length → GetComboOp c10cion.comb_op = "" →
        ∀ s ∈ c10kernel.stmts, s.isIntrinsic = false) :=
  combo_intrinsic_spec trivExt c10vars [] emptyMain c10op c10cion c10bounds
    [] sh4 c10kernel false (by decide)

/-- C7: when the initialization analysis of a lowered contraction reports
true, exactly one Special statement is inserted into main's statement list
immediately before the kernel block — named ZERO with no inputs when the
contraction has no default fill value, and COPY with the default-fill name
as single input otherwise; its single output is the operation's output. -/
theorem init_special_insertion (ext : Externals) (vars : Bindings)
    (ci : List String) (main : MainBlock) (op : Op) (sh : TensorShape)
    (shapes : List TensorShape) (cion : Contraction)
    (rc : List RangeConstraint) (bounds : List (String × Bound))
    (scons : List SimpleConstraint) (kernel : Block)
    (hsh : GetShape vars op.output = .ok sh) (h0 : ¬sh.byteSize = 0)
    (hms : MakeShapes vars op.c = .ok shapes)
    (hcc : CompileContraction ext op.c shapes = .ok (cion, rc))
    (hcb : ext.computeBounds rc = .ok (bounds, scons))
    (hbk : BuildContractionKernel ext vars ci main op cion bounds scons
      (shapes.headD default) = .ok (kernel, true)) :
    ProcessContraction ext vars ci main op =
      .ok { main with stmts := main.stmts ++ [initSpecial op, .sub kernel] } ∧
    (op.c.use_default = "" →
      initSpecial op = .special Special.ZERO [] [] [op.output]) ∧
    (op.c.use_default ≠ "" →
      initSpecial op = .special Special.COPY [] [op.c.use_default] [op.output]) := by
  refine ⟨?_, ?_, ?_⟩
  · unfold ProcessContraction
    rw [hsh]
    simp only [bind, Except.bind]
    rw [if_neg h0, hms]
    simp only [bind, Except.bind]
    rw [hcc]
    simp only [bind, Except.bind]
    rw [hcb]
    simp only [bind, Except.bind]
    rw [hbk]
    simp only [bind, Except.bind, pure, Except.pure, if_pos]
    simp
  · intro hd
    simp [initSpecial, hd]
  · intro hd
    simp [initSpecial, hd]

/-- The output/input shape of the C7 fixture: one dimension of size 2. -/
def c7shape : TensorShape := ⟨"f32", [⟨1, 2⟩], 8⟩

/-- Bindings of the C7 fixture. -/
def c7vars : Bindings := [("O", .tensor c7shape), ("A", .tensor c7shape)]

/-- The C7 fixture contraction: the output access polynomial is the constant
1, so the per-dimension check bails and initialization is required. -/
def c7cion : Contraction :=
  ⟨[⟨"O", [⟨[("", 1)]⟩]⟩, ⟨"A", [⟨[("", 1)]⟩]⟩], .sum, .multiply, "", false⟩

/-- The C7 fixture operation. -/
def c7op : Op :=
  { tag := .contraction, f := ⟨"", [], false⟩, c := c7cion,
    inputs := ["A"], output := "O", attributes := [] }

/-- Scalar view of `c7shape`. -/
def c7scalar : TensorShape := ⟨"f32", [⟨1, 1⟩], 0⟩

/-- The kernel the C7 fixture produces. -/
def c7kernel : Block :=
  { name := "kernel_0", comments := "",
    tags := ["kernel", "contraction", "agg_op_add"],
    idxs := [],
    refs := [⟨.Out, "O", "O", [⟨1, []⟩], c7scalar, "add", false, 0⟩,
             ⟨.In, "A", "A", [⟨1, []⟩], c7scalar, "", false, 0⟩],
    constraints := [],
    stmts := [.load "A" "$A", .intrinsic "assign" ["$A"] ["$O"],
              .store "$O" "O"] }

/-- C7 witness: on the fixture, lowering inserts the ZERO Special
immediately before the kernel block in main's statement list. -/
theorem init_special_insertion_witness :
    ProcessContraction trivExt c7vars [] emptyMain c7op =
      .ok { emptyMain with
        stmts := emptyMain.stmts ++ [initSpecial c7op, .sub c7kernel] } :=
  (init_special_insertion trivExt c7vars [] emptyMain c7op c7shape
    [c7shape, c7shape] c7cion [] [] [] c7kernel (by decide) (by decide)
    (by decide) (by decide) (by decide) (by decide)).1

/-- The broadcast access list in closed form: one entry per input dimension,
aligned to the trailing output dimensions. -/
lemma broadcastAccess_eq_map (kidxs : List Index)
    (out_dims in_dims : List TensorDimension)
    (h : in_dims.length ≤ out_dims.length) :
    broadcastAccess kidxs out_dims in_dims =
      (List.range in_dims.length).map (fun j =>
        if 1 < (in_dims.getD j default).size
        then Affine.var
          ((kidxs.getD (out_dims.length - in_dims.length + j) default).name)
        else Affine.zero) := by
  obtain ⟨d, hd⟩ : ∃ d, out_dims.length = d + in_dims.length :=
    ⟨out_dims.length - in_dims.length, by omega⟩
  simp only [broadcastAccess]
  rw [hd, List.range_add, List.filterMap_append, Nat.add_sub_cancel]
  have h1 : List.filterMap (fun (i : Nat) =>
      if ((d + in_dims.length : Nat) : Int) - (in_dims.length : Int) ≤ (i : Int) then
        some (if 1 < (in_dims.getD (((i : Int) -
            (((d + in_dims.length : Nat) : Int) - (in_dims.length : Int))).toNat)
            default).size
          then Affine.var (kidxs.getD i default).name else Affine.zero)
      else Option.none) (List.range d) = [] := by
    rw [List.filterMap_eq_nil_iff]
    intro i hi
    rw [if_neg]
    have hi' : i < d := List.mem_range.mp hi
    push_cast
    omega
  rw [h1, List.nil_append, List.filterMap_map]
  rw [List.filterMap_eq_map_iff_forall_eq_some]
  intro j hj
  have hj' : j < in_dims.length := List.mem_range.mp hj
  simp only [Function.comp_apply]
  rw [if_pos (by push_cast; omega)]
  have hidx : (((d + j : Nat) : Int) -
      (((d + in_dims.length : Nat) : Int) - (in_dims.length : Int))).toNat = j := by
    push_cast
    omega
  rw [hidx]

/-- The name of the `i`-th elementwise loop index is `i<i+1>`. -/
lemma ewIdxs_getD_name (sh : TensorShape) (i : Nat) (h : i < sh.dims.length) :
    ((ewIdxs sh).getD i default).name = "i" ++ toString (i + 1) := by
  have hx : sh.dims[i]? = some sh.dims[i] := List.getElem?_eq_getElem h
  simp [ewIdxs, List.getD_eq_getElem?_getD, List.getElem?_map,
    List.getElem?_enum, hx]

/-- C6: in elementwise lowering, a tensor input of rank at most the output's
rank `R` gets one access entry per input dimension, aligned to the trailing
output dimensions: the leading `R − r` output dimensions contribute no
entry, and aligned entry `j` is the output loop index `i<R−r+j+1>` when the
input dimension's size exceeds 1 and the constant 0 otherwise; in
particular, inputs of shape (4,1) and (4,8) with output (4,8) yield output
access `(i1, i2)` and first-input access `(i1, 0)`. -/
theorem broadcast_access_spec :
    (∀ (out_shape : TensorShape) (in_dims : List TensorDimension),
      in_dims.length ≤ out_shape.dims.length →
      broadcastAccess (ewIdxs out_shape) out_shape.dims in_dims =
        (List.range in_dims.length).map (fun j =>
          if 1 < (in_dims.getD j default).size
          then Affine.var
            ("i" ++ toString (out_shape.dims.length - in_dims.length + j + 1))
          else Affine.zero)) ∧
    ProcessElementwise trivExt c6vars [] emptyMain c6op = .ok c6mainAfter := by
  constructor
  · intro out_shape in_dims h
    rw [broadcastAccess_eq_map (ewIdxs out_shape) out_shape.dims in_dims h]
    apply List.map_congr_left
    intro j hj
    have hj' : j < in_dims.length := List.mem_range.mp hj
    have hlt : out_shape.dims.length - in_dims.length + j <
        out_shape.dims.length := by omega
    rw [ewIdxs_getD_name out_shape (out_shape.dims.length - in_dims.length + j) hlt]
  · decide

/-- C6 witness: the broadcast rule applied to the (4,1)-into-(4,8) fixture
gives the access `(i1, 0)`. -/
theorem broadcast_access_spec_witness :
    broadcastAccess (ewIdxs shape48) shape48.dims shape41.dims =
      [Affine.var "i1", Affine.zero] := by
  have h := broadcast_access_spec.1 shape48 shape41.dims (by decide)
  rw [h]
  decide

/-- `ProcessContraction` never touches main's refinement list (it only
appends statements, or skips). -/
lemma processContraction_refs (ext : Externals) (vars : Bindings)
    (ci : List String) (main : MainBlock) (op : Op) (m' : MainBlock)
    (h : ProcessContraction ext vars ci main op = .ok m') :
    m'.refs = main.refs := by
  unfold ProcessContraction at h
  cases hG : GetShape vars op.output with
  | error e =>
    rw [hG] at h
    exact absurd h (by simp [bind, Except.bind])
  | ok sh =>
    rw [hG] at h
    simp only [bind, Except.bind] at h
    by_cases h0 : sh.byteSize = 0
    · rw [if_pos h0] at h
      simp only [pure, Except.pure, Except.ok.injEq] at h
      rw [← h]
    · rw [if_neg h0] at h
      split at h
      · exact absurd h (by simp)
      · split at h
        · exact absurd h (by simp)
        · split at h
          · exact absurd h (by simp)
          · split at h
            · exact absurd h (by simp)
            · simp only [pure, Except.pure, Except.ok.injEq] at h
              rw [← h]

/-- `ProcessElementwise` never touches main's refinement list. -/
lemma processElementwise_refs (ext : Externals) (vars : Bindings)
    (ci : List String) (main : MainBlock) (op : Op) (m' : MainBlock)
    (h : ProcessElementwise ext vars ci main op = .ok m') :
    m'.refs = main.refs := by
  obtain ⟨osh, irefs, istmts, oshape, _, _, _, hm⟩ :=
    processElementwise_inv ext vars ci main op m' h
  rw [hm]

/-- No operation processed by the dispatch loop changes main's refinement
list — the Kernel Builder appends only statements at main scope. -/
lemma processOp_refs (ext : Externals) (vars : Bindings) (ci : List String)
    (main : MainBlock) (op : Op) (m' : MainBlock)
    (h : processOp ext vars ci main op = .ok m') :
    m'.refs = main.refs := by
  unfold processOp at h
  cases htag : op.tag with
  | contraction =>
    rw [htag] at h
    exact processContraction_refs ext vars ci main op m' h
  | function =>
    rw [htag] at h
    by_cases hsp : op.f.isSpecial = true
    · rw [if_pos hsp] at h
      simp only [Except.ok.injEq] at h
      rw [← h]
      rfl
    · rw [if_neg hsp] at h
      by_cases hrs : op.f.fn = "reshape"
      · rw [if_pos hrs] at h
        simp only [Except.ok.injEq] at h
        rw [← h]
        rfl
      · rw [if_neg hrs] at h
        exact processElementwise_refs ext vars ci main op m' h
  | constant =>
    rw [htag] at h
    simp only [Except.ok.injEq] at h
    rw [← h]

/-- The whole operation loop preserves main's refinement list. -/
lemma foldlM_processOp_refs (ext : Externals) (vars : Bindings)
    (ci : List String) :
    ∀ (ops : List Op) (main m' : MainBlock),
      List.foldlM (processOp ext vars ci) main ops = .ok m' →
      m'.refs = main.refs := by
  intro ops
  induction ops with
  | nil =>
    intro main m' h
    simp only [List.foldlM_nil, pure, Except.pure, Except.ok.injEq] at h
    rw [← h]
  | cons op rest ih =>
    intro main m' h
    rw [List.foldlM_cons] at h
    cases hp : processOp ext vars ci main op with
    | error e =>
      rw [hp] at h
      exact absurd h (by simp [bind, Except.bind])
    | ok m1 =>
      rw [hp] at h
      simp only [bind, Except.bind] at h
      rw [ih m1 m' h, processOp_refs ext vars ci main op m1 hp]

/-- Whether a binding's kind is Tensor. -/
def Binding.isTensor : Binding → Bool
  | .tensor _ => true
  | _ => false

/-- The number of bound values not recorded as external whose kind is
Tensor — the temporaries the spec counts. -/
def tempCount (externals : List String) (vars : Bindings) : Nat :=
  (vars.filter (fun item => !(externals.contains item.1) && item.2.isTensor)).length

/-- The temporaries loop emits exactly one refinement per non-external
tensor binding. -/
lemma tempRefs_length (ci externals : List String) (vars : Bindings) :
    (tempRefs ci externals vars).length = tempCount externals vars := by
  induction vars with
  | nil => rfl
  | cons item rest ih =>
    cases hext : externals.contains item.1 with
    | true =>
      simp only [tempRefs, tempCount, List.filterMap_cons, List.filter_cons,
        hext] at *
      simpa using ih
    | false =>
      cases hb : item.2 with
      | tensor sh =>
        simp only [tempRefs, tempCount, List.filterMap_cons, List.filter_cons,
          hext, hb, Binding.isTensor] at *
        simpa using ih
      | iconst v =>
        simp only [tempRefs, tempCount, List.filterMap_cons, List.filter_cons,
          hext, hb, Binding.isTensor] at *
        simpa using ih
      | fconst v =>
        simp only [tempRefs, tempCount, List.filterMap_cons, List.filter_cons,
          hext, hb, Binding.isTensor] at *
        simpa using ih
      | tuple =>
        simp only [tempRefs, tempCount, List.filterMap_cons, List.filter_cons,
          hext, hb, Binding.isTensor] at *
        simpa using ih

/-- Every temporary refinement has direction None and no aggregation op. -/
lemma tempRefs_dir (ci externals : List String) (vars : Bindings) :
    ∀ r ∈ tempRefs ci externals vars, r.dir = .None ∧ r.agg_op = "" := by
  intro r hr
  simp only [tempRefs, List.mem_filterMap] at hr
  obtain ⟨item, hmem, hcond⟩ := hr
  by_cases hext : externals.contains item.1 = true
  · rw [if_pos hext] at hcond
    exact absurd hcond (by simp)
  · rw [if_neg hext] at hcond
    cases hb : item.2 with
    | tensor sh =>
      rw [hb] at hcond
      simp only [Option.some.injEq] at hcond
      rw [← hcond]
      exact ⟨rfl, rfl⟩
    | iconst v => rw [hb] at hcond; exact absurd hcond (by simp)
    | fconst v => rw [hb] at hcond; exact absurd hcond (by simp)
    | tuple => rw [hb] at hcond; exact absurd hcond (by simp)

/-- The declarations state after both `AddDecls` calls, in closed form. -/
lemma runDecls_eq (runinfo : RunInfo) :
    runDecls runinfo =
      ({ programInit runinfo with
          refs := runinfo.input_shapes.map (progDeclRef runinfo.const_inputs) ++
            runinfo.output_shapes.map (progDeclRef runinfo.const_inputs) },
       { mainInit with
          refs := runinfo.input_shapes.map (mainInRef runinfo.const_inputs) ++
            runinfo.output_shapes.map mainOutRef }) := rfl

/-- C1 (amended): for every successful run, the program-scope refinement
list is exactly one None declaration per input followed by one per output
(count = #inputs + #outputs); the temporaries are declared at main scope:
the main block's refinement list is one In refinement per input, then one
Out refinement (agg op "assign") per output, then one None refinement (zero
access offsets, no aggregation) per bound value not marked external whose
kind is Tensor, making main's count #inputs + #outputs + #temporaries. -/
theorem run_refs_spec (ext : Externals) (runinfo : RunInfo) (ops : List Op)
    (vars : Bindings) (p : ProgramBlock)
    (h : Run ext runinfo ops vars = .ok p) :
    p.refs = runinfo.input_shapes.map (progDeclRef runinfo.const_inputs) ++
      runinfo.output_shapes.map (progDeclRef runinfo.const_inputs) ∧
    p.refs.length = runinfo.input_shapes.length + runinfo.output_shapes.length ∧
    ∃ mb : MainBlock, p.stmts = [mb] ∧
      mb.refs = runinfo.input_shapes.map (mainInRef runinfo.const_inputs) ++
        runinfo.output_shapes.map mainOutRef ++
        tempRefs runinfo.const_inputs (externalNames runinfo) vars ∧
      mb.refs.length = runinfo.input_shapes.length +
        runinfo.output_shapes.length +
        tempCount (externalNames runinfo) vars ∧
      (∀ r ∈ tempRefs runinfo.const_inputs (externalNames runinfo) vars,
        r.dir = .None ∧ r.agg_op = "") := by
  unfold Run at h
  cases hf : List.foldlM (processOp ext vars runinfo.const_inputs)
      (runDecls runinfo).2 ops with
  | error e =>
    rw [hf] at h
    exact absurd h (by simp [bind, Except.bind])
  | ok main3 =>
    rw [hf] at h
    simp only [bind, Except.bind, pure, Except.pure, Except.ok.injEq] at h
    have hrefs3 : main3.refs = (runDecls runinfo).2.refs :=
      foldlM_processOp_refs ext vars runinfo.const_inputs ops
        (runDecls runinfo).2 main3 hf
    rw [← h]
    have hprog : (runDecls runinfo).1.refs =
        runinfo.input_shapes.map (progDeclRef runinfo.const_inputs) ++
          runinfo.output_shapes.map (progDeclRef runinfo.const_inputs) := rfl
    have hmainrefs : (runDecls runinfo).2.refs =
        runinfo.input_shapes.map (mainInRef runinfo.const_inputs) ++
          runinfo.output_shapes.map mainOutRef := rfl
    have hstmts : (runDecls runinfo).1.stmts = [] := rfl
    refine ⟨hprog, ?_, ?_⟩
    · show ((runDecls runinfo).1.refs).length = _
      rw [hprog]
      simp
    · refine
        ⟨({ main3 with
            refs := main3.refs ++
              tempRefs runinfo.const_inputs (externalNames runinfo) vars } :
          MainBlock), ?_, ?_, ?_, tempRefs_dir _ _ _⟩
      · show (runDecls runinfo).1.stmts ++ [_] = _
        rw [hstmts, List.nil_append]
      · show main3.refs ++ _ = _
        rw [hrefs3, hmainrefs, List.append_assoc]
      · show (main3.refs ++ _).length = _
        rw [hrefs3, hmainrefs]
        simp [tempRefs_length]
        omega

/-- The tensor shape shared by the C1 fixture's bindings. -/
def c1shape : TensorShape := ⟨"f32", [⟨1, 4⟩], 16⟩

/-- The C1 fixture run descriptor: one input `A`, one output `B`. -/
def c1runinfo : RunInfo :=
  { program_name := "prog", const_inputs := [],
    input_shapes := [("A", c1shape)], output_shapes := [("B", c1shape)] }

/-- The C1 fixture bindings: the externals plus one tensor temporary `T`. -/
def c1vars : Bindings :=
  [("A", .tensor c1shape), ("B", .tensor c1shape), ("T", .tensor c1shape)]

/-- C1 counterexample: with one input, one output and one non-external
tensor temporary, the program-scope refinement count is 2 — not the
claimed #inputs + #outputs + #temporaries = 3.  The temporary's None
refinement is appended at main scope instead (main's count is 3). -/
theorem program_refs_claim_counterexample :
    (Run trivExt c1runinfo [] c1vars).map (fun p => p.refs.length) = .ok 2 ∧
    c1runinfo.input_shapes.length + c1runinfo.output_shapes.length +
      tempCount (externalNames c1runinfo) c1vars = 3 ∧
    (Run trivExt c1runinfo [] c1vars).map
      (fun p => p.stmts.map (fun mb => mb.refs.length)) = .ok [3] := by
  decide

/-- The program the C1 fixture produces. -/
def c1program : ProgramBlock :=
  { name := "prog", comments := "", tags := ["program"], idxs := [],
    refs := [⟨.None, "", "A", [Affine.zero], c1shape, "", false, 0⟩,
             ⟨.None, "", "B", [Affine.zero], c1shape, "", false, 0⟩],
    constraints := [],
    stmts := [{ name := "main", comments := "", tags := ["main"], idxs := [],
                refs := [⟨.In, "A", "A", [Affine.zero], c1shape, "", false, 0⟩,
                         ⟨.Out, "B", "B", [Affine.zero], c1shape, "assign", false, 0⟩,
                         ⟨.None, "", "T", [Affine.zero], c1shape, "", false, 0⟩],
                constraints := [], stmts := [] }] }

/-- C1 witness: the amended refinement layout holds on the fixture run. -/
theorem run_refs_spec_witness :
    c1program.refs.length =
      c1runinfo.input_shapes.length + c1runinfo.output_shapes.length ∧
    ∃ mb : MainBlock, c1program.stmts = [mb] ∧
      mb.refs.length = c1runinfo.input_shapes.length +
        c1runinfo.output_shapes.length +
        tempCount (externalNames c1runinfo) c1vars :=
  have h := run_refs_spec trivExt c1runinfo [] c1vars c1program (by decide)
  ⟨h.2.1, h.2.2.elim (fun mb hmb => ⟨mb, hmb.1, hmb.2.2.1⟩)⟩

end GenStripe
